import Mathlib

/-!
# Verification of the HandGesture / DetectX detection pipeline

Shallow embedding of the core of the `pandosme/HandGesture` ACAP application
(box decoder, non-maximum suppression, crop cache, per-label event gate) and
proofs about it.  Each definition mirrors a C function of the repository;
the C file and function are named in the doc comment.  C `float`/`double`
arithmetic is modelled over `ℚ`, C `int` over `ℤ` (or `ℕ` for array indices
and sizes), millisecond timestamps over `ℤ`.
-/

namespace HandGesture

/-! ## Generic list helpers

Small self-contained helpers used to model C arrays: `nthD` is indexed read
with a default (out-of-range reads never occur on the modelled paths, the
default only totalises the function), `setAt` is indexed write (a write past
the end is a no-op, again never exercised), `sumSlots f n` is the C loop
`for (i = 0; i < n; ++i) sum += f[i]`, and `updFn` is a single write to an
array modelled as a function. -/

def nthD {α : Type} (d : α) : List α → Nat → α
  | [], _ => d
  | a :: _, 0 => a
  | _ :: as, n + 1 => nthD d as n

def setAt {α : Type} : List α → Nat → α → List α
  | [], _, _ => []
  | _ :: as, 0, b => b :: as
  | a :: as, n + 1, b => a :: setAt as n b

def updFn (f : Nat → ℤ) (i : Nat) (b : ℤ) : Nat → ℤ :=
  fun j => if j = i then b else f j

def sumSlots (f : Nat → ℤ) : Nat → ℤ
  | 0 => 0
  | n + 1 => sumSlots f n + f n

/-! ## Detections and IoU

`Detection` mirrors the cJSON detection objects built by `Model_Inference`
(src/unnamed/part_000): fields `label`, `c` (confidence), `x`/`y`/`w`/`h`
(corner-form geometry after the centre-to-corner conversion), `timestamp`
and `refId`. -/

structure Detection where
  label : String
  c : ℚ
  x : ℚ
  y : ℚ
  w : ℚ
  h : ℚ
  timestamp : ℤ
  refId : ℤ
deriving DecidableEq, Inhabited, Repr

/-- `iou` from src/unnamed/part_000 lines 389-399: intersection-over-union of
two boxes whose 8 arguments are interpreted in centre form
(`x - w/2` … `x + w/2`), intersection clamped to non-negative extents.
`ℚ` division is total (`x / 0 = 0`), matching the code everywhere the union
is non-zero. -/
def iou (x1 y1 w1 h1 x2 y2 w2 h2 : ℚ) : ℚ :=
  let xx1 := max (x1 - w1 / 2) (x2 - w2 / 2)
  let yy1 := max (y1 - h1 / 2) (y2 - h2 / 2)
  let xx2 := min (x1 + w1 / 2) (x2 + w2 / 2)
  let yy2 := min (y1 + h1 / 2) (y2 + h2 / 2)
  let inter := max 0 (xx2 - xx1) * max 0 (yy2 - yy1)
  let union := w1 * h1 + w2 * h2 - inter
  inter / union

/-- IoU of two `Detection`s, applied to the stored fields exactly as
`non_maximum_suppression` passes them. -/
def iouD (a b : Detection) : ℚ :=
  iou a.x a.y a.w a.h b.x b.y b.w b.h

/-! ## Non-maximum suppression

`non_maximum_suppression` from src/unnamed/part_000 lines 401-450: a keep
bitmap initialised all-true; the outer loop visits indices `0 … n-1` in
order, the inner loop visits `j = i+1 … n-1`; if the IoU of a still-kept
pair exceeds the threshold the lower-confidence one is dropped (`c1 > c2`
drops `j`, otherwise `i` is dropped and its inner loop stops).  The result
is the input filtered by the final bitmap (stable order). -/

def nmsInner (nms : ℚ) (di : Detection) (i : Nat) (dets : List Detection)
    (keep : List Bool) : List Nat → List Bool
  | [] => keep
  | j :: js =>
    if nthD false keep j then
      let dj := nthD default dets j
      if iouD di dj > nms then
        if di.c > dj.c then nmsInner nms di i dets (setAt keep j false) js
        else setAt keep i false
      else nmsInner nms di i dets keep js
    else nmsInner nms di i dets keep js

def nmsOuter (nms : ℚ) (dets : List Detection) (keep : List Bool) : List Nat → List Bool
  | [] => keep
  | i :: is =>
    if nthD false keep i then
      let di := nthD default dets i
      nmsOuter nms dets
        (nmsInner nms di i dets keep (List.range' (i + 1) (dets.length - (i + 1)))) is
    else nmsOuter nms dets keep is

/-- The final filter of `non_maximum_suppression` (lines 441-447): copy the
items whose keep bit survived, in order. -/
def select : List Detection → List Bool → List Detection
  | [], _ => []
  | _ :: _, [] => []
  | d :: ds, b :: bs => if b then d :: select ds bs else select ds bs

def nmsKeepMap (nms : ℚ) (dets : List Detection) : List Bool :=
  nmsOuter nms dets (List.replicate dets.length true) (List.range dets.length)

/-- `non_maximum_suppression` (src/unnamed/part_000 lines 401-450).  The
static threshold `nms` (set from model.json) is passed explicitly.  Lists of
fewer than 2 items short-circuit unchanged. -/
def non_maximum_suppression (nms : ℚ) (dets : List Detection) : List Detection :=
  if dets.length < 2 then dets
  else select dets (nmsKeepMap nms dets)

/-- The keep-bit pair property maintained by the outer loop: all pairs whose
first index has already been processed are non-overlapping if both kept. -/
def Good (nms : ℚ) (dets : List Detection) (a : Nat) (keep : List Bool) : Prop :=
  ∀ i j, i < a → i < j →
    nthD false keep i = true → nthD false keep j = true →
    ¬ (iouD (nthD default dets i) (nthD default dets j) > nms)

/-- Two concrete overlapping detections used to exercise the NMS theorems
on explicit inputs. -/
def detA : Detection := ⟨"hand", 9/10, 0, 0, 10, 10, 0, 1⟩

def detB : Detection := ⟨"hand", 2/5, 1, 1, 10, 10, 0, 2⟩

/-! ## Box decoder

`Model_Inference` (src/unnamed/part_000 lines 116-235).  The hardware
preprocessing / inference jobs are external collaborators; the decode loop
(lines 192-232) reads the quantized output tensor row by row.  A row is the
`5 + classes` bytes `[cx, cy, w, h, objectness, conf_0, …]`; dequantization
is `(raw - zeroPoint) * scale`.  `confidenceThreshold` is the static
constant `0.30` of the C file (it is never reconfigured by `Model_Setup`). -/

/-- Dequantization `(raw - quant_zero) * quant` (glossary and lines 194-204). -/
def dq (scale zero : ℚ) (raw : ℕ) : ℚ := ((raw : ℚ) - zero) * scale

/-- Dequantized objectness of a row (5th element, line 194). -/
def rowObj (scale zero : ℚ) (row : List ℕ) : ℚ := dq scale zero (nthD 0 row 4)

/-- Dequantized class confidence `(raw - zero) * scale * objectness`
(line 204). -/
def rowConf (scale zero : ℚ) (row : List ℕ) (c : ℕ) : ℚ :=
  dq scale zero (nthD 0 row (5 + c)) * rowObj scale zero row

/-- `static float confidenceThreshold = 0.30` (line 45, never updated). -/
def confidenceThreshold : ℚ := 3 / 10

/-- One decoded row before timestamp/refId assignment. -/
structure RowOut where
  label : String
  c : ℚ
  x : ℚ
  y : ℚ
  w : ℚ
  h : ℚ
deriving DecidableEq, Repr

/-- The class-argmax loop (lines 201-209): `classId = -1`, `maxConfidence = 0`,
strict improvement. -/
def argmaxConf (confAt : ℕ → ℚ) (classes : ℕ) : Option ℕ × ℚ :=
  (List.range classes).foldl
    (fun best c => if best.2 < confAt c then (some c, confAt c) else best)
    (none, 0)

/-- Decode of one tensor row (lines 192-230): skip unless
`objectness >= objectnessThreshold`; emit only if the maximum class
confidence strictly exceeds `confidenceThreshold`; convert centre
coordinates to corner coordinates. -/
def decodeRow (scale zero objTh : ℚ) (labels : List String) (classes : ℕ)
    (row : List ℕ) : Option RowOut :=
  let obj := rowObj scale zero row
  if objTh ≤ obj then
    let x := dq scale zero (nthD 0 row 0)
    let y := dq scale zero (nthD 0 row 1)
    let w := dq scale zero (nthD 0 row 2)
    let h := dq scale zero (nthD 0 row 3)
    let best := argmaxConf (rowConf scale zero row) classes
    if confidenceThreshold < best.2 then
      some ⟨(match best.1 with
             | some cid => nthD "Undefined" labels cid
             | none => "Undefined"),
            best.2, x - w / 2, y - h / 2, w, h⟩
    else none
  else none

def mkDetection (r : RowOut) (ts refId : ℤ) : Detection :=
  ⟨r.label, r.c, r.x, r.y, r.w, r.h, ts, refId⟩

/-- One iteration of the decode loop: an emitted row is appended with the
current `currentRefId`, which is then incremented (`currentRefId++`,
line 228). -/
def decodeStep (scale zero objTh : ℚ) (labels : List String) (classes : ℕ)
    (ts : ℤ) (acc : List Detection × ℤ) (row : List ℕ) : List Detection × ℤ :=
  match decodeRow scale zero objTh labels classes row with
  | none => acc
  | some r => (acc.1 ++ [mkDetection r ts acc.2], acc.2 + 1)

/-- The decode loop over all `boxes` rows with refId assignment: every
emitted detection gets a fresh, monotonically increasing refId, and the
global counter advances. -/
def decodeRows (scale zero objTh : ℚ) (labels : List String) (classes : ℕ)
    (ts : ℤ) (rows : List (List ℕ)) (ref0 : ℤ) : List Detection × ℤ :=
  rows.foldl (decodeStep scale zero objTh labels classes ts) ([], ref0)

/-- Detection-list result of `Model_Inference` (line 234: the decoded list
goes through `non_maximum_suppression`), together with the updated global
`currentRefId` counter. -/
def Model_Inference (nms scale zero objTh : ℚ) (labels : List String)
    (classes : ℕ) (ts : ℤ) (rows : List (List ℕ)) (ref0 : ℤ) :
    List Detection × ℤ :=
  let dec := decodeRows scale zero objTh labels classes ts rows ref0
  (non_maximum_suppression nms dec.1, dec.2)

/-- A concrete tensor row (`cx=100, cy=50, w=20, h=10, objectness=1,
conf_0=1` with identity quantization) used to exercise the decoder
theorems. -/
def rowW : List ℕ := [100, 50, 20, 10, 1, 1]

def rowOutW : RowOut := ⟨"hand", 1, 90, 45, 20, 10⟩

/-! ## Crop cache

`Model_GetImageData` (src/unnamed/part_000 lines 238-383) and the crop
cache `cropCache[MODEL_MAX_CACHED_CROPS]` (lines 90-113).  The source frame
buffer, the `crop_interleaved` extraction and the JPEG encoding are external
collaborators: they are modelled by an abstract frame type `F` and an
encode oracle `F → crop rectangle → Option (byte list)`; `none` or an empty
byte list models the C failure paths (`crop_interleaved` returning `NULL`,
`jpeg_buf == NULL || jpeglen == 0`). -/

def MODEL_MAX_CACHED_CROPS : ℕ := 5

/-- The origin clamp shared by both axes of lines 301-322:
`p = dp - border; if (p < 0) p = 0;`. -/
def clampPos (border dp : ℤ) : ℤ :=
  if dp - border < 0 then 0 else dp - border

/-- The extent clamp shared by both axes of lines 301-322: shrink by the
amount clipped at the near edge, clip at `limit`, then force a minimum of 1.
`len0` is the pre-clamp extent (`dp_w + left + right` for the crop box,
`dp_w` for the detection-relative box). -/
def clampLen (limit border dp len0 : ℤ) : ℤ :=
  let p0 := dp - border
  let w1 := if p0 < 0 then len0 + p0 else len0
  let p1 := if p0 < 0 then 0 else p0
  let w2 := if p1 + w1 > limit then limit - p1 else w1
  if w2 < 1 then 1 else w2

/-- Normalized `[0,1000]` coordinate to source pixels (lines 296-299):
`(int)round(v * dimension / 1000.0)`. -/
def toPixel (dim : ℤ) (q : ℚ) : ℤ := round (q * (dim : ℚ) / 1000)

/-- `CropCacheEntry` (lines 90-100). -/
structure CropCacheEntry where
  refId : ℤ
  crop_x : ℤ
  crop_y : ℤ
  crop_w : ℤ
  crop_h : ℤ
  img_w : ℤ
  img_h : ℤ
  jpeg_buf : List ℕ
deriving DecidableEq, Repr

structure DetGeom where
  x : ℚ
  y : ℚ
  w : ℚ
  h : ℚ
deriving DecidableEq, Repr

/-- The fields of a detection object that `Model_GetImageData` reads:
optional `refId` (line 259) and optional numeric geometry (lines 284-294). -/
structure DetReq where
  refId : Option ℤ
  geom : Option DetGeom
deriving DecidableEq, Repr

/-- The outputs of a successful `Model_GetImageData` call: JPEG bytes, the
detection-relative bounding box (`out_x..out_h`) and the crop dimensions
(`img_w, img_h`). -/
structure ImageData where
  jpeg : List ℕ
  out_x : ℤ
  out_y : ℤ
  out_w : ℤ
  out_h : ℤ
  img_w : ℤ
  img_h : ℤ
deriving DecidableEq, Repr

/-- Configuration and collaborators visible to `Model_GetImageData`:
cropping active flag, border offsets, source dimensions (`videoWidth`,
`videoHeight`), the HD RGB frame buffer (`original_rgb_buffer`, nullable)
and the crop+JPEG-encode pipeline as an oracle. -/
structure CropEnv (F : Type) where
  active : Bool
  leftborder : ℤ
  rightborder : ℤ
  topborder : ℤ
  bottomborder : ℤ
  videoWidth : ℤ
  videoHeight : ℤ
  frame : Option F
  encode : F → ℤ → ℤ → ℤ → ℤ → Option (List ℕ)

/-- Linear first-match cache lookup (lines 266-277). -/
def findEntry (rid : ℤ) : List CropCacheEntry → Option CropCacheEntry
  | [] => none
  | e :: rest => if e.refId = rid then some e else findEntry rid rest

/-- `crop_x` of lines 301-311. -/
def cropX {F : Type} (env : CropEnv F) (g : DetGeom) : ℤ :=
  clampPos env.leftborder (toPixel env.videoWidth g.x)

/-- `crop_y` of lines 301-311. -/
def cropY {F : Type} (env : CropEnv F) (g : DetGeom) : ℤ :=
  clampPos env.topborder (toPixel env.videoHeight g.y)

/-- `crop_w` of lines 301-311. -/
def cropW {F : Type} (env : CropEnv F) (g : DetGeom) : ℤ :=
  clampLen env.videoWidth env.leftborder (toPixel env.videoWidth g.x)
    (toPixel env.videoWidth g.w + env.leftborder + env.rightborder)

/-- `crop_h` of lines 301-311. -/
def cropH {F : Type} (env : CropEnv F) (g : DetGeom) : ℤ :=
  clampLen env.videoHeight env.topborder (toPixel env.videoHeight g.y)
    (toPixel env.videoHeight g.h + env.topborder + env.bottomborder)

/-- `det_x` of lines 313-322 (detection position relative to the crop). -/
def detRelX {F : Type} (env : CropEnv F) (g : DetGeom) : ℤ :=
  clampPos (cropX env g) (toPixel env.videoWidth g.x)

def detRelY {F : Type} (env : CropEnv F) (g : DetGeom) : ℤ :=
  clampPos (cropY env g) (toPixel env.videoHeight g.y)

def detRelW {F : Type} (env : CropEnv F) (g : DetGeom) : ℤ :=
  clampLen (cropW env g) (cropX env g) (toPixel env.videoWidth g.x)
    (toPixel env.videoWidth g.w)

def detRelH {F : Type} (env : CropEnv F) (g : DetGeom) : ℤ :=
  clampLen (cropH env g) (cropY env g) (toPixel env.videoHeight g.y)
    (toPixel env.videoHeight g.h)

/-- The returned outputs of a fresh (non-cached) crop (lines 373-379). -/
def imageDataOf {F : Type} (env : CropEnv F) (g : DetGeom) (bs : List ℕ) :
    ImageData :=
  ⟨bs, detRelX env g, detRelY env g, detRelW env g, detRelH env g,
   cropW env g, cropH env g⟩

/-- The cache entry stored for a fresh crop (lines 360-371). -/
def cropEntryOf {F : Type} (env : CropEnv F) (rid : ℤ) (g : DetGeom)
    (bs : List ℕ) : CropCacheEntry :=
  ⟨rid, detRelX env g, detRelY env g, detRelW env g, detRelH env g,
   cropW env g, cropH env g, bs⟩

/-- `Model_GetImageData` (lines 238-383).  Returns the result (absent on
any failure) and the possibly-extended cache: on a miss the crop is
computed, encoded and — only if the cache is below its fixed capacity —
stored; a full cache is left unchanged and the fresh result is still
returned. -/
def Model_GetImageData {F : Type} (env : CropEnv F) (cache : List CropCacheEntry)
    (det : DetReq) : Option ImageData × List CropCacheEntry :=
  if env.active then
    match det.refId with
    | none => (none, cache)
    | some rid =>
      match findEntry rid cache with
      | some e =>
        (some ⟨e.jpeg_buf, e.crop_x, e.crop_y, e.crop_w, e.crop_h, e.img_w, e.img_h⟩,
         cache)
      | none =>
        match det.geom with
        | none => (none, cache)
        | some g =>
          match env.frame with
          | none => (none, cache)
          | some fr =>
            match env.encode fr (cropX env g) (cropY env g) (cropW env g)
                (cropH env g) with
            | none => (none, cache)
            | some bs =>
              if bs.isEmpty then (none, cache)
              else
                (some (imageDataOf env g bs),
                 if cache.length < MODEL_MAX_CACHED_CROPS then
                   cache ++ [cropEntryOf env rid g bs]
                 else cache)
  else (none, cache)

/-- Concrete instantiation used on explicit inputs: frames are numbered and
the encoder returns a one-byte payload naming the frame. -/
def encW : ℕ → ℤ → ℤ → ℤ → ℤ → Option (List ℕ) := fun f _ _ _ _ => some [f]

def envW (f : ℕ) : CropEnv ℕ := ⟨true, 0, 0, 0, 0, 1280, 720, some f, encW⟩

def entryW (i : ℤ) : CropCacheEntry := ⟨i, 0, 0, 1, 1, 1, 1, [9]⟩

def cache5W : List CropCacheEntry :=
  [entryW 1, entryW 2, entryW 3, entryW 4, entryW 5]

def detW6 : DetReq := ⟨some 6, some ⟨0, 0, 0, 0⟩⟩

def det7 : DetReq := ⟨some 7, some ⟨0, 0, 0, 0⟩⟩

def cacheOneW : List CropCacheEntry := [entryW 1]

/-! ## Per-label event gate

`Output` and `Output_DeactivateExpired` from src/app/Output.c.  Only the
event-gating state (`eventsCache`) is modelled: the MQTT/HTTP/SD export
side effects and the crop-export path are sinks that do not feed back into
the gate state.  `prioritize` is modelled as a Boolean (`speed` vs the
default `accuracy`). -/

def MAX_LABELS : ℕ := 32

def MAX_ROLLING : ℕ := 16

/-- `LabelEventState` (Output.c lines 38-45); the `int rolling[MAX_ROLLING]`
array is modelled as a function `ℕ → ℤ`. -/
structure LabelEventState where
  name : String
  state : Bool
  rolling : ℕ → ℤ
  rolling_head : ℕ
  rolling_count : ℕ
  last_detect_time : ℤ

/-- The initialisation in `find_or_create_label_state` (lines 57-65). -/
def freshLabel (name : String) : LabelEventState :=
  ⟨name, false, fun _ => 0, 0, 0, 0⟩

/-- Advance the ring head circularly and write bit `b`
(lines 220-222 / 347-349). -/
def pushSlot (ws : ℕ) (b : ℤ) (st : LabelEventState) : LabelEventState :=
  { st with
    rolling_head := (st.rolling_head + 1) % ws,
    rolling := updFn st.rolling ((st.rolling_head + 1) % ws) b,
    rolling_count :=
      if st.rolling_count < ws then st.rolling_count + 1 else st.rolling_count }

/-- The ring-buffer sum loop (lines 226-228):
`for (i = 0; i < rolling_count; ++i) sum += rolling[i]`. -/
def ringSum (st : LabelEventState) : ℤ := sumSlots st.rolling st.rolling_count

/-- Accuracy-mode update for a label that appeared this cycle
(lines 219-237): push a `1`, stamp `last_detect_time`, and if currently LOW
and the ring sum reaches `min_frames_in_window`, go HIGH. -/
def accUpdate (ws mf : ℕ) (now : ℤ) (st : LabelEventState) : LabelEventState :=
  let st1 := pushSlot ws 1 st
  let st2 := { st1 with last_detect_time := now }
  if st.state = false ∧ (mf : ℤ) ≤ ringSum st1 then { st2 with state := true }
  else st2

/-- Accuracy-mode update for a tracked label that did not appear
(lines 346-351): push a `0`, change nothing else (`last_detect_time` is
deliberately not touched). -/
def accZeroUpdate (ws : ℕ) (st : LabelEventState) : LabelEventState :=
  pushSlot ws 0 st

/-- Speed-mode update (lines 206-217): any detection makes the label HIGH
and stamps `last_detect_time`. -/
def speedUpdate (now : ℤ) (st : LabelEventState) : LabelEventState :=
  { st with state := true, last_detect_time := now }

/-- One accuracy-mode processing cycle as seen by a single tracked label:
either its 1-push update or its 0-push update. -/
def accCycleDet (ws mf : ℕ) (now : ℤ) (detected : Bool) (st : LabelEventState) :
    LabelEventState :=
  if detected then accUpdate ws mf now st else accZeroUpdate ws st

/-- A trace of accuracy-mode cycles (constant window size) for one label:
each cycle carries its wall-clock time and whether the label appeared. -/
def runAcc (ws mf : ℕ) (cycles : List (ℤ × Bool)) (st : LabelEventState) :
    LabelEventState :=
  cycles.foldl (fun s c => accCycleDet ws mf c.1 c.2 s) st

/-- A trace of accuracy-mode cycles with a per-cycle window size (the code
recomputes `window_size` every cycle from the average inference latency). -/
def runAccW (mf : ℕ) (cycles : List (ℕ × ℤ × Bool)) (st : LabelEventState) :
    LabelEventState :=
  cycles.foldl (fun s c => accCycleDet c.1 mf c.2.1 c.2.2 s) st

/-- Presence bits of a cycle trace, as the integers pushed into the ring. -/
def bitsOf (cycles : List (ℤ × Bool)) : List ℤ :=
  cycles.map (fun c => if c.2 then 1 else 0)

/-- Reference description of the ring contents after pushing the bits `bs`
(the `k`-th push, 1-based, lands in slot `k % ws`): scanning from the most
recent push backwards, slot `j` holds the latest bit whose position is
`j mod ws`, else its initial `0`. -/
def slotSpecRev (ws : ℕ) : ℕ → List ℤ → ℕ → ℤ
  | _, [], _ => 0
  | k, b :: rest, j => if k % ws = j then b else slotSpecRev ws (k - 1) rest j

def slotSpec (ws : ℕ) (bs : List ℤ) (j : ℕ) : ℤ :=
  slotSpecRev ws bs.length bs.reverse j

/-- Sum of the last `ws` pushed bits. -/
def windowSum (ws : ℕ) (bs : List ℤ) : ℤ :=
  (List.drop (bs.length - ws) bs).sum

/-- Gate configuration for one `Output` cycle: `prioritize == "speed"`,
the recomputed `window_size` and `min_frames_in_window`. -/
structure GateCfg where
  speed : Bool
  ws : ℕ
  mf : ℕ

/-- The per-detection state update (lines 206-238). -/
def updDet (cfg : GateCfg) (now : ℤ) (st : LabelEventState) : LabelEventState :=
  if cfg.speed then speedUpdate now st else accUpdate cfg.ws cfg.mf now st

/-- Apply `f` to the first entry named `label`, or report that none exists
(the linear scan of `find_or_create_label_state`, lines 53-56). -/
def applyFirst (label : String) (f : LabelEventState → LabelEventState) :
    List LabelEventState → Option (List LabelEventState)
  | [] => none
  | st :: rest =>
    if st.name = label then some (f st :: rest)
    else (applyFirst label f rest).map (st :: ·)

/-- Processing of one detection in the `Output` loop: find or create the
label state (creation only below `MAX_LABELS`, lines 57-67; a full table
skips gating for that detection, line 205) and apply the mode update. -/
def processDet (cfg : GateCfg) (now : ℤ) (ls : List LabelEventState)
    (label : String) : List LabelEventState :=
  match applyFirst label (updDet cfg now) ls with
  | some ls' => ls'
  | none =>
    if ls.length < MAX_LABELS then ls ++ [updDet cfg now (freshLabel label)]
    else ls

/-- The trailing loop of `Output` (lines 341-353): every tracked label not
among the frame's recorded labels rolls in a `0` (accuracy mode only). -/
def rollZeros (ws : ℕ) (frameLabels : List String)
    (ls : List LabelEventState) : List LabelEventState :=
  ls.map (fun st =>
    if frameLabels.contains st.name then st else accZeroUpdate ws st)

/-- The gate-state effect of one `Output` call (lines 101-356): an empty or
null detection list returns immediately (lines 102-105); otherwise each
detection is processed in order (`frame_labels` records at most
`MAX_LABELS` labels, lines 198-201), and in accuracy mode the non-detected
tracked labels then roll in a `0`. -/
def Output (cfg : GateCfg) (now : ℤ) (dets : List String)
    (ls : List LabelEventState) : List LabelEventState :=
  if dets.isEmpty then ls
  else
    let ls1 := dets.foldl (processDet cfg now) ls
    if cfg.speed then ls1 else rollZeros cfg.ws (dets.take MAX_LABELS) ls1

/-- One entry of the timeout sweep (lines 78-93): a HIGH label whose
`last_detect_time` is more than `minEventDuration` in the past goes LOW. -/
def sweepEntry (now minDur : ℤ) (st : LabelEventState) : LabelEventState :=
  if st.state = true ∧ now - st.last_detect_time > minDur then
    { st with state := false }
  else st

/-- `Output_DeactivateExpired` (lines 70-96): the updated table and the
falling events (`label`, `state=false`) it publishes. -/
def Output_DeactivateExpired (now minDur : ℤ) (ls : List LabelEventState) :
    List LabelEventState × List (String × Bool) :=
  (ls.map (sweepEntry now minDur),
   (ls.filter (fun st => st.state && decide (now - st.last_detect_time > minDur))).map
     (fun st => (st.name, false)))

/-- `ls'` extends `ls`: same labels at the same positions (new labels only
appended), and no tracked label has been taken from HIGH to LOW. -/
def Ext (ls ls' : List LabelEventState) : Prop :=
  ls.length ≤ ls'.length ∧
  ∀ i, i < ls.length →
    (nthD (freshLabel "") ls' i).name = (nthD (freshLabel "") ls i).name ∧
    ((nthD (freshLabel "") ls i).state = true →
      (nthD (freshLabel "") ls' i).state = true)

/-- C cast `(int)` truncation towards zero, on `ℚ`. -/
def truncQ (q : ℚ) : ℤ := if 0 ≤ q then ⌊q⌋ else ⌈q⌉

/-- The per-cycle window-size computation (Output.c lines 152-156):
`(int)((desired_window_ms + averageInferenceTime - 1) / averageInferenceTime)`
clamped to `[2, MAX_ROLLING]`. -/
def windowSizeOf (desired_window_ms : ℤ) (avg : ℚ) : ℤ :=
  let raw := truncQ (((desired_window_ms : ℚ) + avg - 1) / avg)
  let w1 := if raw < 2 then 2 else raw
  if w1 > (MAX_ROLLING : ℤ) then (MAX_ROLLING : ℤ) else w1

/-- A concrete HIGH label state used to exercise the gate theorems. -/
def stHigh : LabelEventState :=
  { name := "hand", state := true, rolling := fun _ => 0, rolling_head := 0,
    rolling_count := 0, last_detect_time := 0 }

/-! ## Process-wide mutable state and resets -/

/-- The process-wide mutable state relevant to the reset operations:
`currentRefId` (src/unnamed/part_000 line 88), the model crop cache
(lines 102-103), and the `Output` module state (Output.c lines 47-50).
`outputCropCache` stands for the separate HTTP crop-API cache of
`Output_crop_cache` whose source lives outside src/; only the fact that
`Output_reset` clears it matters here. -/
structure PipelineState where
  currentRefId : ℤ
  cropCache : List CropCacheEntry
  eventsCache : List LabelEventState
  lastDetectionsWereEmpty : Bool
  last_output_time_ms : ℤ
  outputCropCache : List (List ℕ)

/-- `Model_Reset` (src/unnamed/part_000 lines 385-387): only
`clear_crop_cache()`. -/
def Model_Reset (s : PipelineState) : PipelineState :=
  { s with cropCache := [] }

/-- `Output_reset` (Output.c lines 359-366): clears the label table, the
empty-frame flag, the throttle timer and the HTTP crop cache. -/
def Output_reset (s : PipelineState) : PipelineState :=
  { s with
    eventsCache := []
    lastDetectionsWereEmpty := false
    last_output_time_ms := 0
    outputCropCache := [] }

/-! ## Theorems -/

theorem nthD_append_left {α : Type} (d : α) (l₁ l₂ : List α) (i : Nat)
    (h : i < l₁.length) : nthD d (l₁ ++ l₂) i = nthD d l₁ i := by
  induction l₁ generalizing i with
  | nil => simp at h
  | cons a as ih =>
    cases i with
    | zero => rfl
    | succ n => exact ih n (by simpa using Nat.lt_of_succ_lt_succ h)

theorem nthD_append_length {α : Type} (d : α) (l : List α) (b : α) :
    nthD d (l ++ [b]) l.length = b := by
  induction l with
  | nil => rfl
  | cons a as ih => simpa using ih

theorem nthD_map {α β : Type} (d : α) (d' : β) (f : α → β) (l : List α) (i : Nat)
    (h : i < l.length) : nthD d' (l.map f) i = f (nthD d l i) := by
  induction l generalizing i with
  | nil => simp at h
  | cons a as ih =>
    cases i with
    | zero => rfl
    | succ n => exact ih n (by simpa using Nat.lt_of_succ_lt_succ h)

theorem length_setAt {α : Type} (l : List α) (i : Nat) (b : α) :
    (setAt l i b).length = l.length := by
  induction l generalizing i with
  | nil => rfl
  | cons a as ih =>
    cases i with
    | zero => rfl
    | succ n => simp [setAt, ih n]

theorem nthD_setAt_eq {α : Type} (d : α) (l : List α) (i : Nat) (b : α)
    (h : i < l.length) : nthD d (setAt l i b) i = b := by
  induction l generalizing i with
  | nil => simp at h
  | cons a as ih =>
    cases i with
    | zero => rfl
    | succ n => exact ih n (by simpa using Nat.lt_of_succ_lt_succ h)

theorem nthD_setAt_ne {α : Type} (d : α) (l : List α) (i j : Nat) (b : α)
    (h : j ≠ i) : nthD d (setAt l i b) j = nthD d l j := by
  induction l generalizing i j with
  | nil => rfl
  | cons a as ih =>
    cases i with
    | zero =>
      cases j with
      | zero => exact absurd rfl h
      | succ m => rfl
    | succ n =>
      cases j with
      | zero => rfl
      | succ m => exact ih n m (fun hh => h (by simpa using hh))

theorem drop_eq_nthD_cons {α : Type} (d : α) (l : List α) (i : Nat)
    (h : i < l.length) :
    List.drop i l = nthD d l i :: List.drop (i + 1) l := by
  induction l generalizing i with
  | nil => simp at h
  | cons a as ih =>
    cases i with
    | zero => simp [nthD]
    | succ n =>
      simp only [List.drop_succ_cons, nthD]
      exact ih n (by simpa using Nat.lt_of_succ_lt_succ h)

theorem drop_append_le {α : Type} (l₁ l₂ : List α) (n : Nat)
    (h : n ≤ l₁.length) :
    List.drop n (l₁ ++ l₂) = List.drop n l₁ ++ l₂ := by
  induction l₁ generalizing n with
  | nil =>
    have : n = 0 := by simpa using h
    simp [this]
  | cons a as ih =>
    cases n with
    | zero => simp
    | succ m =>
      simp only [List.cons_append, List.drop_succ_cons]
      exact ih m (by simpa using Nat.le_of_succ_le_succ h)

theorem sumSlots_congr (f g : Nat → ℤ) (n : Nat) (h : ∀ j < n, f j = g j) :
    sumSlots f n = sumSlots g n := by
  induction n with
  | zero => rfl
  | succ m ih =>
    simp only [sumSlots]
    rw [ih (fun j hj => h j (Nat.lt_succ_of_lt hj)), h m (Nat.lt_succ_self m)]

theorem sumSlots_shift (f : Nat → ℤ) (n : Nat) :
    sumSlots f (n + 1) = f 0 + sumSlots (fun i => f (i + 1)) n := by
  induction n with
  | zero => simp [sumSlots]
  | succ m ih =>
    calc sumSlots f (m + 2) = sumSlots f (m + 1) + f (m + 1) := rfl
    _ = (f 0 + sumSlots (fun i => f (i + 1)) m) + f (m + 1) := by rw [ih]
    _ = f 0 + sumSlots (fun i => f (i + 1)) (m + 1) := by
          simp only [sumSlots]; ring

theorem sumSlots_updFn (f : Nat → ℤ) (s : Nat) (b : ℤ) (n : Nat) (h : s < n) :
    sumSlots (updFn f s b) n = sumSlots f n + b - f s := by
  induction n with
  | zero => simp at h
  | succ m ih =>
    by_cases hs : s = m
    · subst hs
      have : sumSlots (updFn f s b) s = sumSlots f s :=
        sumSlots_congr _ _ _ (fun j hj => by
          simp [updFn, Nat.ne_of_lt hj])
      simp only [sumSlots, this, updFn, if_pos rfl, if_true]
      ring
    · have hsm : s < m := Nat.lt_of_le_of_ne (Nat.le_of_lt_succ h) hs
      have hms : m ≠ s := fun hh => hs hh.symm
      simp only [sumSlots, ih hsm, updFn, if_neg hms]
      ring

/-- `sumSlots` over indexed reads of a list of that length is the list sum. -/
theorem sumSlots_nthD (l : List ℤ) :
    sumSlots (fun i => nthD 0 l i) l.length = l.sum := by
  induction l with
  | nil => rfl
  | cons a as ih =>
    have := sumSlots_shift (fun i => nthD 0 (a :: as) i) as.length
    simp only [List.length_cons, this]
    have h2 : sumSlots (fun i => nthD 0 (a :: as) (i + 1)) as.length
        = sumSlots (fun i => nthD 0 as i) as.length :=
      sumSlots_congr _ _ _ (fun j _ => rfl)
    rw [h2, ih]
    rfl

theorem setAt_ge {α : Type} (l : List α) (i : Nat) (b : α) (h : l.length ≤ i) :
    setAt l i b = l := by
  induction l generalizing i with
  | nil => rfl
  | cons a as ih =>
    cases i with
    | zero => simp at h
    | succ n => simp [setAt, ih n (by simpa using Nat.le_of_succ_le_succ h)]

theorem nthD_ge {α : Type} (d : α) (l : List α) (i : Nat) (h : l.length ≤ i) :
    nthD d l i = d := by
  induction l generalizing i with
  | nil => rfl
  | cons a as ih =>
    cases i with
    | zero => simp at h
    | succ n => exact ih n (by simpa using Nat.le_of_succ_le_succ h)

theorem lt_length_of_nthD_true (l : List Bool) (i : Nat)
    (h : nthD false l i = true) : i < l.length := by
  by_contra hge
  rw [nthD_ge false l i (Nat.le_of_not_lt hge)] at h
  exact Bool.false_ne_true h

theorem select_sublist (l : List Detection) (K : List Bool) :
    (select l K).Sublist l := by
  induction l generalizing K with
  | nil => simp [select]
  | cons d ds ih =>
    cases K with
    | nil => exact List.nil_sublist _
    | cons b bs =>
      cases b with
      | true => simpa [select] using (ih bs).cons₂ d
      | false => simpa [select] using (ih bs).cons d

theorem mem_select (l : List Detection) (K : List Bool) (e : Detection)
    (h : e ∈ select l K) :
    ∃ i, i < l.length ∧ nthD false K i = true ∧ nthD default l i = e := by
  induction l generalizing K with
  | nil => simp [select] at h
  | cons d ds ih =>
    cases K with
    | nil => simp [select] at h
    | cons b bs =>
      cases b with
      | true =>
        simp only [select, if_true] at h
        rcases List.mem_cons.mp h with he | he
        · exact ⟨0, by simp, rfl, he.symm⟩
        · rcases ih bs he with ⟨i, hi, hk, hv⟩
          exact ⟨i + 1, by simpa using Nat.succ_lt_succ hi, hk, hv⟩
      | false =>
        simp only [select, if_false] at h
        rcases ih bs h with ⟨i, hi, hk, hv⟩
        exact ⟨i + 1, by simpa using Nat.succ_lt_succ hi, hk, hv⟩

theorem length_nmsInner (nms : ℚ) (di : Detection) (i : Nat)
    (dets : List Detection) (js : List Nat) (keep : List Bool) :
    (nmsInner nms di i dets keep js).length = keep.length := by
  induction js generalizing keep with
  | nil => rfl
  | cons j js ih =>
    simp only [nmsInner]
    split
    · split
      · split
        · rw [ih, length_setAt]
        · rw [length_setAt]
      · exact ih keep
    · exact ih keep

/-- The inner NMS loop only ever clears keep bits, never sets them. -/
theorem nmsInner_mono (nms : ℚ) (di : Detection) (i : Nat)
    (dets : List Detection) (js : List Nat) (keep : List Bool) (j : Nat)
    (h : nthD false (nmsInner nms di i dets keep js) j = true) :
    nthD false keep j = true := by
  induction js generalizing keep with
  | nil => exact h
  | cons j' js ih =>
    simp only [nmsInner] at h
    by_cases hk : nthD false keep j' = true
    · rw [if_pos hk] at h
      by_cases hiou : iouD di (nthD default dets j') > nms
      · rw [if_pos hiou] at h
        by_cases hc : di.c > (nthD default dets j').c
        · rw [if_pos hc] at h
          have h2 := ih _ h
          by_cases hjj : j = j'
          · subst hjj
            have hlt : j < keep.length := lt_length_of_nthD_true keep j hk
            rw [nthD_setAt_eq false keep j false hlt] at h2
            exact absurd h2 Bool.false_ne_true
          · rwa [nthD_setAt_ne false keep j' j false hjj] at h2
        · rw [if_neg hc] at h
          by_cases hjj : j = i
          · subst hjj
            by_cases hlt : j < keep.length
            · rw [nthD_setAt_eq false keep j false hlt] at h
              exact absurd h Bool.false_ne_true
            · rw [setAt_ge keep j false (Nat.le_of_not_lt hlt),
                nthD_ge false keep j (Nat.le_of_not_lt hlt)] at h
              exact absurd h Bool.false_ne_true
          · rwa [nthD_setAt_ne false keep i j false hjj] at h
      · rw [if_neg hiou] at h
        exact ih _ h
    · rw [if_neg hk] at h
      exact ih _ h

/-- Inner-loop correctness: if after the inner pass for `i` the bit of `i`
is still set, then every index of `js` whose bit is still set has IoU with
`i` at or below the threshold. -/
theorem nmsInner_correct (nms : ℚ) (di : Detection) (i : Nat)
    (dets : List Detection) (js : List Nat) (keep : List Bool)
    (hi : i < keep.length) (hnot : i ∉ js)
    (hK : nthD false (nmsInner nms di i dets keep js) i = true) :
    ∀ j ∈ js, nthD false (nmsInner nms di i dets keep js) j = true →
      ¬ (iouD di (nthD default dets j) > nms) := by
  induction js generalizing keep with
  | nil => intro j hj; simp at hj
  | cons j' js ih =>
    intro j hj hKj
    have hij' : i ≠ j' := fun h => hnot (h ▸ List.mem_cons_self j' js)
    have hnot' : i ∉ js := fun h => hnot (List.mem_cons_of_mem j' h)
    simp only [nmsInner] at hK hKj
    by_cases hk : nthD false keep j' = true
    · rw [if_pos hk] at hK hKj
      by_cases hiou : iouD di (nthD default dets j') > nms
      · rw [if_pos hiou] at hK hKj
        by_cases hc : di.c > (nthD default dets j').c
        · rw [if_pos hc] at hK hKj
          rcases List.mem_cons.mp hj with hjj | hjm
          · subst hjj
            have h2 := nmsInner_mono nms di i dets js _ j hKj
            have hlt : j < keep.length := lt_length_of_nthD_true keep j hk
            rw [nthD_setAt_eq false keep j false hlt] at h2
            exact absurd h2 Bool.false_ne_true
          · exact ih (setAt keep j' false)
              (by rwa [length_setAt]) hnot' hK j hjm hKj
        · rw [if_neg hc] at hK
          rw [nthD_setAt_eq false keep i false hi] at hK
          exact absurd hK Bool.false_ne_true
      · rw [if_neg hiou] at hK hKj
        rcases List.mem_cons.mp hj with hjj | hjm
        · subst hjj; exact hiou
        · exact ih keep hi hnot' hK j hjm hKj
    · rw [if_neg hk] at hK hKj
      rcases List.mem_cons.mp hj with hjj | hjm
      · subst hjj
        have h2 := nmsInner_mono nms di i dets js keep j hKj
        exact absurd h2 hk
      · exact ih keep hi hnot' hK j hjm hKj

theorem length_nmsOuter (nms : ℚ) (dets : List Detection) (is : List Nat)
    (keep : List Bool) :
    (nmsOuter nms dets keep is).length = keep.length := by
  induction is generalizing keep with
  | nil => rfl
  | cons i is ih =>
    simp only [nmsOuter]
    split
    · rw [ih, length_nmsInner]
    · exact ih keep

theorem nmsOuter_mono (nms : ℚ) (dets : List Detection) (is : List Nat)
    (keep : List Bool) (j : Nat)
    (h : nthD false (nmsOuter nms dets keep is) j = true) :
    nthD false keep j = true := by
  induction is generalizing keep with
  | nil => exact h
  | cons i is ih =>
    simp only [nmsOuter] at h
    by_cases hk : nthD false keep i = true
    · rw [if_pos hk] at h
      exact nmsInner_mono nms _ i dets _ keep j (ih _ h)
    · rw [if_neg hk] at h
      exact ih keep h

theorem nmsOuter_correct (nms : ℚ) (dets : List Detection) :
    ∀ n a keep, dets.length - a = n → keep.length = dets.length →
      Good nms dets a keep →
      Good nms dets dets.length
        (nmsOuter nms dets keep (List.range' a (dets.length - a))) := by
  intro n
  induction n with
  | zero =>
    intro a keep hn _ hg
    rw [hn]
    simp only [List.range', nmsOuter]
    intro i j hia hij hki hkj
    exact hg i j (Nat.lt_of_lt_of_le (lt_length_of_nthD_true keep i hki)
      (by omega)) hij hki hkj
  | succ m ih =>
    intro a keep hn hlen hg
    have ha : a < dets.length := by omega
    rw [hn, List.range'_succ]
    simp only [nmsOuter]
    by_cases hk : nthD false keep a = true
    · rw [if_pos hk]
      set keep1 := nmsInner nms (nthD default dets a) a dets keep
        (List.range' (a + 1) (dets.length - (a + 1))) with hkeep1
      have hlen1 : keep1.length = dets.length := by
        rw [hkeep1, length_nmsInner]; exact hlen
      have hg1 : Good nms dets (a + 1) keep1 := by
        intro i j hia hij hki hkj
        by_cases hia' : i < a
        · exact hg i j hia' hij
            (nmsInner_mono nms _ a dets _ keep i hki)
            (nmsInner_mono nms _ a dets _ keep j hkj)
        · have hieq : i = a := by omega
          subst hieq
          have hjlen : j < keep1.length := lt_length_of_nthD_true keep1 j hkj
          have hjlt : j < dets.length := hlen1 ▸ hjlen
          have hjmem : j ∈ List.range' (i + 1) (dets.length - (i + 1)) := by
            rw [List.mem_range'_1]
            omega
          have hanot : i ∉ List.range' (i + 1) (dets.length - (i + 1)) := by
            rw [List.mem_range'_1]
            omega
          exact nmsInner_correct nms (nthD default dets i) i dets _ keep
            (by omega) hanot hki j hjmem hkj
      have hrw : dets.length - (a + 1) = m := by omega
      have hres := ih (a + 1) keep1 hrw hlen1 hg1
      rw [hrw] at hres
      exact hres
    · rw [if_neg hk]
      have hg1 : Good nms dets (a + 1) keep := by
        intro i j hia hij hki hkj
        by_cases hia' : i < a
        · exact hg i j hia' hij hki hkj
        · have hieq : i = a := by omega
          subst hieq
          exact absurd hki hk
      have hrw : dets.length - (a + 1) = m := by omega
      have hres := ih (a + 1) keep hrw hlen hg1
      rw [hrw] at hres
      exact hres

theorem select_pairwise (R : Detection → Detection → Prop)
    (l : List Detection) (K : List Bool)
    (H : ∀ i j, i < j → j < l.length →
      nthD false K i = true → nthD false K j = true →
      R (nthD default l i) (nthD default l j)) :
    (select l K).Pairwise R := by
  induction l generalizing K with
  | nil => simp [select]
  | cons d ds ih =>
    cases K with
    | nil => simp [select]
    | cons b bs =>
      have hshift : ∀ i j, i < j → j < ds.length →
          nthD false bs i = true → nthD false bs j = true →
          R (nthD default ds i) (nthD default ds j) := by
        intro i j hij hj hbi hbj
        exact H (i + 1) (j + 1) (Nat.succ_lt_succ hij)
          (by simpa using Nat.succ_lt_succ hj) hbi hbj
      cases b with
      | true =>
        simp only [select, if_true]
        refine List.Pairwise.cons ?_ (ih bs hshift)
        intro e he
        rcases mem_select ds bs e he with ⟨i, hi, hk, hv⟩
        have hR := H 0 (i + 1) (Nat.succ_pos i)
          (by simpa using Nat.succ_lt_succ hi) rfl hk
        simp only [nthD] at hR
        rwa [hv] at hR
      | false =>
        simp only [select, if_false]
        exact ih bs hshift

theorem nms_sublist (nms : ℚ) (l : List Detection) :
    (non_maximum_suppression nms l).Sublist l := by
  rw [non_maximum_suppression]
  split
  · exact List.Sublist.refl l
  · exact select_sublist l (nmsKeepMap nms l)

theorem nms_pairwise (nms : ℚ) (l : List Detection) :
    (non_maximum_suppression nms l).Pairwise (fun d e => iouD d e ≤ nms) := by
  rw [non_maximum_suppression]
  split
  · rename_i hlen
    interval_cases h : l.length
    all_goals
      rcases l with _ | ⟨x, _ | ⟨y, t⟩⟩ <;> simp_all
  · have hgood : Good nms l l.length (nmsKeepMap nms l) := by
      have h0 : Good nms l 0 (List.replicate l.length true) := by
        intro i j hi _ _ _
        exact absurd hi (Nat.not_lt_zero i)
      have := nmsOuter_correct nms l (l.length - 0) 0
        (List.replicate l.length true) rfl (by simp) h0
      simpa [nmsKeepMap, List.range_eq_range'] using this
    refine select_pairwise _ l (nmsKeepMap nms l) ?_
    intro i j hij hj hki hkj
    have := hgood i j (Nat.lt_of_lt_of_le hij (Nat.le_of_lt hj)) hij hki hkj
    exact not_lt.mp this

theorem nms_pair (nms : ℚ) (a b : Detection) (h : iouD a b > nms) :
    non_maximum_suppression nms [a, b] = if a.c > b.c then [a] else [b] := by
  have hlen : ¬ (([a, b] : List Detection).length < 2) := by simp
  rw [non_maximum_suppression, if_neg hlen]
  have hkm : nmsKeepMap nms [a, b]
      = nmsOuter nms [a, b] [true, true] [0, 1] := by
    simp [nmsKeepMap, List.replicate, (by decide : List.range 2 = [0, 1])]
  rw [hkm]
  by_cases hc : a.c > b.c
  · rw [if_pos hc]
    simp only [nmsOuter, nmsInner, nthD, List.length_cons, List.length_nil]
    norm_num [List.range', if_pos h, if_pos hc, setAt, select, nthD, nmsOuter,
      nmsInner]
  · rw [if_neg hc]
    simp only [nmsOuter, nmsInner, nthD, List.length_cons, List.length_nil]
    norm_num [List.range', if_pos h, if_neg hc, setAt, select, nthD, nmsOuter,
      nmsInner]

/-- C3: `non_maximum_suppression` scans pairs in original order over a keep
bitmap initialised all-true; whenever the IoU of a still-kept pair exceeds
the threshold the lower-confidence one is dropped (`c1 > c2` drops `j`,
otherwise `i` is dropped and stops comparing); inputs of 0 or 1 items are
returned unchanged, the output is an order-preserving subsequence of the
input, no two survivors overlap above the threshold, and for a conflicting
pair the higher-confidence detection survives (ties drop the earlier one). -/
theorem C3_nms_contract :
    (∀ (nms : ℚ) (l : List Detection), l.length < 2 →
        non_maximum_suppression nms l = l) ∧
    (∀ (nms : ℚ) (l : List Detection),
        (non_maximum_suppression nms l).Sublist l) ∧
    (∀ (nms : ℚ) (l : List Detection),
        (non_maximum_suppression nms l).Pairwise (fun d e => iouD d e ≤ nms)) ∧
    (∀ (nms : ℚ) (a b : Detection), iouD a b > nms →
        non_maximum_suppression nms [a, b] = if a.c > b.c then [a] else [b]) := by
  refine ⟨?_, nms_sublist, nms_pairwise, nms_pair⟩
  intro nms l h
  rw [non_maximum_suppression, if_pos h]

theorem C3_nms_contract_witness :
    non_maximum_suppression (1/20) [detA] = [detA] ∧
    non_maximum_suppression (1/20) [detA, detB] = [detA] := by
  have h1 := C3_nms_contract.1 (1/20) [detA] (by decide)
  have hiou : iouD detA detB > 1/20 := by
    norm_num [iouD, iou, detA, detB]
  have h2 := C3_nms_contract.2.2.2 (1/20) detA detB hiou
  rw [if_pos (by norm_num [detA, detB] : detA.c > detB.c)] at h2
  exact ⟨h1, h2⟩

/-- Invariant of the class-argmax fold: the running maximum is non-negative,
bounds every scanned confidence, is `0` with no class while nothing positive
was seen, and otherwise is attained at the recorded class index. -/
theorem argmaxConf_spec (confAt : ℕ → ℚ) (classes : ℕ) :
    0 ≤ (argmaxConf confAt classes).2 ∧
    (∀ j < classes, confAt j ≤ (argmaxConf confAt classes).2) ∧
    ((argmaxConf confAt classes).1 = none → (argmaxConf confAt classes).2 = 0) ∧
    (∀ i, (argmaxConf confAt classes).1 = some i →
      i < classes ∧ confAt i = (argmaxConf confAt classes).2 ∧
      0 < (argmaxConf confAt classes).2) := by
  induction classes with
  | zero =>
    refine ⟨le_refl 0, fun j hj => absurd hj (Nat.not_lt_zero j), fun _ => rfl, ?_⟩
    intro i hi
    simp [argmaxConf] at hi
  | succ m ih =>
    have hstep : argmaxConf confAt (m + 1)
        = (if (argmaxConf confAt m).2 < confAt m
           then (some m, confAt m) else argmaxConf confAt m) := by
      unfold argmaxConf
      rw [List.range_succ, List.foldl_append]
      rfl
    obtain ⟨ih0, ihb, ihn, ihs⟩ := ih
    rw [hstep]
    by_cases himp : (argmaxConf confAt m).2 < confAt m
    · rw [if_pos himp]
      refine ⟨le_of_lt (lt_of_le_of_lt ih0 himp), ?_, ?_, ?_⟩
      · intro j hj
        rcases Nat.lt_succ_iff_lt_or_eq.mp hj with hjm | hje
        · exact le_of_lt (lt_of_le_of_lt (ihb j hjm) himp)
        · subst hje; exact le_refl _
      · intro h; exact absurd h (by simp)
      · intro i hi
        have him : m = i := by simpa using hi
        subst him
        exact ⟨Nat.lt_succ_self _, rfl, lt_of_le_of_lt ih0 himp⟩
    · rw [if_neg himp]
      refine ⟨ih0, ?_, ihn, ?_⟩
      · intro j hj
        rcases Nat.lt_succ_iff_lt_or_eq.mp hj with hjm | hje
        · exact ihb j hjm
        · subst hje; exact not_lt.mp himp
      · intro i hi
        obtain ⟨h1, h2, h3⟩ := ihs i hi
        exact ⟨Nat.lt_succ_of_lt h1, h2, h3⟩

/-- C4: a row of the quantized output tensor yields a Detection iff the
dequantized objectness reaches `objectnessThreshold` and the maximum class
confidence `(raw - zeroPoint) * scale * objectness` strictly exceeds
`confidenceThreshold`; an emitted row carries that maximum as its
confidence, a class attaining it as its label, and corner coordinates
`x = cx - w/2`, `y = cy - h/2` from the dequantized centre-form geometry. -/
theorem C4_decoder_contract (scale zero objTh : ℚ) (labels : List String)
    (classes : ℕ) (row : List ℕ) :
    (∀ d, decodeRow scale zero objTh labels classes row = some d →
      objTh ≤ rowObj scale zero row ∧
      confidenceThreshold < d.c ∧
      (∀ c < classes, rowConf scale zero row c ≤ d.c) ∧
      (∃ c < classes, rowConf scale zero row c = d.c ∧
        d.label = nthD "Undefined" labels c) ∧
      d.x = dq scale zero (nthD 0 row 0) - dq scale zero (nthD 0 row 2) / 2 ∧
      d.y = dq scale zero (nthD 0 row 1) - dq scale zero (nthD 0 row 3) / 2 ∧
      d.w = dq scale zero (nthD 0 row 2) ∧
      d.h = dq scale zero (nthD 0 row 3)) ∧
    (decodeRow scale zero objTh labels classes row = none ↔
      (rowObj scale zero row < objTh ∨
       ∀ c < classes, rowConf scale zero row c ≤ confidenceThreshold)) := by
  obtain ⟨h0, hb, hn, hs⟩ := argmaxConf_spec (rowConf scale zero row) classes
  by_cases hobj : objTh ≤ rowObj scale zero row
  · by_cases hconf :
        confidenceThreshold < (argmaxConf (rowConf scale zero row) classes).2
    · have heq : decodeRow scale zero objTh labels classes row
          = some ⟨(match (argmaxConf (rowConf scale zero row) classes).1 with
                   | some cid => nthD "Undefined" labels cid
                   | none => "Undefined"),
                  (argmaxConf (rowConf scale zero row) classes).2,
                  dq scale zero (nthD 0 row 0) - dq scale zero (nthD 0 row 2) / 2,
                  dq scale zero (nthD 0 row 1) - dq scale zero (nthD 0 row 3) / 2,
                  dq scale zero (nthD 0 row 2), dq scale zero (nthD 0 row 3)⟩ := by
        rw [decodeRow]
        rw [if_pos hobj, if_pos hconf]
      constructor
      · intro d hd
        rw [heq] at hd
        have hd' := Option.some.inj hd
        subst hd'
        have hsome : ∃ i, (argmaxConf (rowConf scale zero row) classes).1 = some i := by
          cases hopt : (argmaxConf (rowConf scale zero row) classes).1 with
          | none =>
            have := hn hopt
            rw [this] at hconf
            norm_num [confidenceThreshold] at hconf
          | some i => exact ⟨i, rfl⟩
        obtain ⟨i, hi⟩ := hsome
        obtain ⟨hilt, hival, _⟩ := hs i hi
        refine ⟨hobj, hconf, hb, ⟨i, hilt, hival, ?_⟩, rfl, rfl, rfl, rfl⟩
        rw [hi]
      · rw [heq]
        simp only [reduceCtorEq, false_iff, not_or, not_lt, not_forall]
        refine ⟨hobj, ?_⟩
        have hsome : ∃ i, (argmaxConf (rowConf scale zero row) classes).1 = some i := by
          cases hopt : (argmaxConf (rowConf scale zero row) classes).1 with
          | none =>
            have := hn hopt
            rw [this] at hconf
            norm_num [confidenceThreshold] at hconf
          | some i => exact ⟨i, rfl⟩
        obtain ⟨i, hi⟩ := hsome
        obtain ⟨hilt, hival, _⟩ := hs i hi
        exact ⟨i, hilt, by rw [hival]; exact not_le.mpr hconf⟩
    · have heq : decodeRow scale zero objTh labels classes row = none := by
        rw [decodeRow]
        rw [if_pos hobj, if_neg hconf]
      constructor
      · intro d hd
        rw [heq] at hd
        exact absurd hd (by simp)
      · rw [heq]
        simp only [true_iff]
        right
        intro c hc
        exact le_trans (hb c hc) (not_lt.mp hconf)
  · have heq : decodeRow scale zero objTh labels classes row = none := by
      rw [decodeRow, if_neg hobj]
    constructor
    · intro d hd
      rw [heq] at hd
      exact absurd hd (by simp)
    · rw [heq]
      simp only [true_iff]
      exact Or.inl (not_le.mp hobj)

theorem C4_decoder_contract_witness :
    decodeRow 1 0 (1/4) ["hand"] 1 rowW = some rowOutW ∧
    confidenceThreshold < rowOutW.c ∧
    (∃ c < 1, rowConf 1 0 rowW c = rowOutW.c ∧
      rowOutW.label = nthD "Undefined" ["hand"] c) := by
  have hd : decodeRow 1 0 (1/4) ["hand"] 1 rowW = some rowOutW := by
    norm_num [decodeRow, rowObj, rowConf, dq, rowW, rowOutW, argmaxConf,
      confidenceThreshold, nthD, List.range_succ, List.range_zero]
  have h := (C4_decoder_contract 1 0 (1/4) ["hand"] 1 rowW).1 rowOutW hd
  exact ⟨hd, h.2.1, h.2.2.2.1⟩

theorem findEntry_none_not_mem (rid : ℤ) (l : List CropCacheEntry)
    (h : findEntry rid l = none) : rid ∉ l.map CropCacheEntry.refId := by
  induction l with
  | nil => simp
  | cons e rest ih =>
    simp only [findEntry] at h
    by_cases he : e.refId = rid
    · rw [if_pos he] at h; exact absurd h (by simp)
    · rw [if_neg he] at h
      simp only [List.map_cons, List.mem_cons]
      rintro (hh | hh)
      · exact he hh.symm
      · exact ih h hh

theorem findEntry_append (rid : ℤ) (l₁ l₂ : List CropCacheEntry)
    (h : findEntry rid l₁ = none) :
    findEntry rid (l₁ ++ l₂) = findEntry rid l₂ := by
  induction l₁ with
  | nil => rfl
  | cons e rest ih =>
    simp only [findEntry] at h ⊢
    by_cases he : e.refId = rid
    · rw [if_pos he] at h; exact absurd h (by simp)
    · rw [if_neg he] at h ⊢
      exact ih h

/-- Cache-hit path of `Model_GetImageData` (lines 266-277): the stored entry
is returned verbatim and the cache is untouched. -/
theorem getImageData_hit {F : Type} (env : CropEnv F) (cache : List CropCacheEntry)
    (det : DetReq) (rid : ℤ) (e : CropCacheEntry)
    (hact : env.active = true) (hrid : det.refId = some rid)
    (hfind : findEntry rid cache = some e) :
    Model_GetImageData env cache det
      = (some ⟨e.jpeg_buf, e.crop_x, e.crop_y, e.crop_w, e.crop_h, e.img_w, e.img_h⟩,
         cache) := by
  simp [Model_GetImageData, hact, hrid, hfind]

/-- Once the cache is at capacity, no call changes it. -/
theorem getImageData_full {F : Type} (env : CropEnv F) (cache : List CropCacheEntry)
    (det : DetReq) (h5 : MODEL_MAX_CACHED_CROPS ≤ cache.length) :
    (Model_GetImageData env cache det).2 = cache := by
  by_cases hact : env.active
  · cases hrid : det.refId with
    | none => simp [Model_GetImageData, hact, hrid]
    | some rid =>
      cases hfind : findEntry rid cache with
      | some e => simp [Model_GetImageData, hact, hrid, hfind]
      | none =>
        cases hg : det.geom with
        | none => simp [Model_GetImageData, hact, hrid, hfind, hg]
        | some g =>
          cases hfr : env.frame with
          | none => simp [Model_GetImageData, hact, hrid, hfind, hg, hfr]
          | some fr =>
            cases henc : env.encode fr (cropX env g) (cropY env g) (cropW env g)
                (cropH env g) with
            | none => simp [Model_GetImageData, hact, hrid, hfind, hg, hfr, henc]
            | some bs =>
              by_cases hbs : bs.isEmpty
              · simp [Model_GetImageData, hact, hrid, hfind, hg, hfr, henc, hbs]
              · simp [Model_GetImageData, hact, hrid, hfind, hg, hfr, henc, hbs,
                  if_neg (not_lt.mpr h5)]
  · simp [Model_GetImageData, hact]

/-- Entries are never evicted: the cache only ever grows by a suffix. -/
theorem getImageData_extends {F : Type} (env : CropEnv F)
    (cache : List CropCacheEntry) (det : DetReq) :
    ∃ tail, (Model_GetImageData env cache det).2 = cache ++ tail := by
  by_cases hact : env.active
  · cases hrid : det.refId with
    | none => exact ⟨[], by simp [Model_GetImageData, hact, hrid]⟩
    | some rid =>
      cases hfind : findEntry rid cache with
      | some e => exact ⟨[], by simp [Model_GetImageData, hact, hrid, hfind]⟩
      | none =>
        cases hg : det.geom with
        | none => exact ⟨[], by simp [Model_GetImageData, hact, hrid, hfind, hg]⟩
        | some g =>
          cases hfr : env.frame with
          | none => exact ⟨[], by simp [Model_GetImageData, hact, hrid, hfind, hg, hfr]⟩
          | some fr =>
            cases henc : env.encode fr (cropX env g) (cropY env g) (cropW env g)
                (cropH env g) with
            | none =>
              exact ⟨[], by simp [Model_GetImageData, hact, hrid, hfind, hg, hfr, henc]⟩
            | some bs =>
              by_cases hbs : bs.isEmpty
              · exact ⟨[], by
                  simp [Model_GetImageData, hact, hrid, hfind, hg, hfr, henc, hbs]⟩
              · by_cases hlen : cache.length < MODEL_MAX_CACHED_CROPS
                · refine ⟨[cropEntryOf env rid g bs], ?_⟩
                  simp [Model_GetImageData, hact, hrid, hfind, hg, hfr, henc, hbs, hlen]
                · exact ⟨[], by
                    simp [Model_GetImageData, hact, hrid, hfind, hg, hfr, henc, hbs, hlen]⟩
  · exact ⟨[], by simp [Model_GetImageData, hact]⟩

/-- Cache-miss characterization: a successful fresh request computed the
crop from the current environment, and stored it iff the cache was below
capacity. -/
theorem getImageData_miss {F : Type} (env : CropEnv F) (cache : List CropCacheEntry)
    (det : DetReq) (rid : ℤ) (out : ImageData) (c1 : List CropCacheEntry)
    (hact : env.active = true) (hrid : det.refId = some rid)
    (hfind : findEntry rid cache = none)
    (hres : Model_GetImageData env cache det = (some out, c1)) :
    ∃ g bs, det.geom = some g ∧ out = imageDataOf env g bs ∧
      ((cache.length < MODEL_MAX_CACHED_CROPS ∧
          c1 = cache ++ [cropEntryOf env rid g bs]) ∨
       (MODEL_MAX_CACHED_CROPS ≤ cache.length ∧ c1 = cache)) := by
  cases hg : det.geom with
  | none => simp [Model_GetImageData, hact, hrid, hfind, hg] at hres
  | some g =>
    cases hfr : env.frame with
    | none => simp [Model_GetImageData, hact, hrid, hfind, hg, hfr] at hres
    | some fr =>
      cases henc : env.encode fr (cropX env g) (cropY env g) (cropW env g)
          (cropH env g) with
      | none => simp [Model_GetImageData, hact, hrid, hfind, hg, hfr, henc] at hres
      | some bs =>
        by_cases hbs : bs.isEmpty
        · simp [Model_GetImageData, hact, hrid, hfind, hg, hfr, henc, hbs] at hres
        · simp only [Model_GetImageData, hact, hrid, hfind, hg, hfr, henc, hbs,
            if_true, Bool.false_eq_true, if_false, Prod.mk.injEq,
            Option.some.injEq] at hres
          obtain ⟨h1, h2⟩ := hres
          refine ⟨g, bs, rfl, h1.symm, ?_⟩
          by_cases hlen : cache.length < MODEL_MAX_CACHED_CROPS
          · exact Or.inl ⟨hlen, by rw [← h2, if_pos hlen]⟩
          · exact Or.inr ⟨not_lt.mp hlen, by rw [← h2, if_neg hlen]⟩

/-- C2 (amended): on a cache hit the stored entry is returned verbatim with
the cache untouched; once the cache holds its fixed capacity of
`MODEL_MAX_CACHED_CROPS = 5` entries no request changes it (a 6th distinct
refId is simply not stored — though its freshly computed bytes are still
returned, see the counterexample); and entries are never evicted. -/
theorem C2_crop_capacity :
    (∀ (F : Type) (env : CropEnv F) (cache : List CropCacheEntry) (det : DetReq)
        (rid : ℤ) (e : CropCacheEntry),
      env.active = true → det.refId = some rid → findEntry rid cache = some e →
      Model_GetImageData env cache det
        = (some ⟨e.jpeg_buf, e.crop_x, e.crop_y, e.crop_w, e.crop_h,
                 e.img_w, e.img_h⟩, cache)) ∧
    (∀ (F : Type) (env : CropEnv F) (cache : List CropCacheEntry) (det : DetReq),
      MODEL_MAX_CACHED_CROPS ≤ cache.length →
      (Model_GetImageData env cache det).2 = cache) ∧
    (∀ (F : Type) (env : CropEnv F) (cache : List CropCacheEntry) (det : DetReq),
      ∃ tail, (Model_GetImageData env cache det).2 = cache ++ tail) :=
  ⟨fun _ env cache det rid e hact hrid hfind =>
      getImageData_hit env cache det rid e hact hrid hfind,
   fun _ env cache det h5 => getImageData_full env cache det h5,
   fun _ env cache det => getImageData_extends env cache det⟩

theorem C2_crop_capacity_witness :
    Model_GetImageData (envW 1) cache5W ⟨some 3, none⟩
      = (some ⟨[9], 0, 0, 1, 1, 1, 1⟩, cache5W) :=
  C2_crop_capacity.1 ℕ (envW 1) cache5W ⟨some 3, none⟩ 3 (entryW 3) rfl rfl rfl

/-- C2 counterexample: with the cache at its capacity of 5, a request for a
6th distinct refId does NOT return absent — the fresh bytes are returned
(it is only the caching that is skipped, the cache stays unchanged). -/
theorem C2_crop_capacity_counterexample :
    cache5W.length = MODEL_MAX_CACHED_CROPS ∧
    findEntry 6 cache5W = none ∧
    (Model_GetImageData (envW 1) cache5W detW6).1
      = some (imageDataOf (envW 1) ⟨0, 0, 0, 0⟩ [1]) ∧
    (Model_GetImageData (envW 1) cache5W detW6).2 = cache5W :=
  ⟨rfl, rfl, rfl, rfl⟩

/-- C9 (amended): when the first request for a refId left an entry for it in
the cache (hit, or fresh store below capacity), any later request for the
same refId with no intervening cache reset is a cache hit returning the
stored entry verbatim: byte-identical JPEG and identical box values. -/
theorem C9_repeat_request_verbatim (F : Type) (env env2 : CropEnv F)
    (cache c1 : List CropCacheEntry) (det : DetReq) (rid : ℤ) (out : ImageData)
    (hact : env.active = true) (hact2 : env2.active = true)
    (hrid : det.refId = some rid)
    (hres : Model_GetImageData env cache det = (some out, c1))
    (hmem : rid ∈ c1.map CropCacheEntry.refId) :
    Model_GetImageData env2 c1 det = (some out, c1) := by
  cases hfind : findEntry rid cache with
  | some e =>
    have h1 := getImageData_hit env cache det rid e hact hrid hfind
    have heq := hres.symm.trans h1
    have hc1 : c1 = cache := congrArg Prod.snd heq
    have hout : out = ⟨e.jpeg_buf, e.crop_x, e.crop_y, e.crop_w, e.crop_h,
        e.img_w, e.img_h⟩ := Option.some.inj (congrArg Prod.fst heq)
    subst hc1
    rw [hout]
    exact getImageData_hit env2 _ det rid e hact2 hrid hfind
  | none =>
    obtain ⟨g, bs, hg, hout, hstore⟩ :=
      getImageData_miss env cache det rid out c1 hact hrid hfind hres
    cases hstore with
    | inl h =>
      obtain ⟨hlen, hc1⟩ := h
      have hfind2 : findEntry rid c1 = some (cropEntryOf env rid g bs) := by
        rw [hc1, findEntry_append rid cache _ hfind]
        simp [findEntry, cropEntryOf]
      have h2 := getImageData_hit env2 c1 det rid (cropEntryOf env rid g bs)
        hact2 hrid hfind2
      rw [h2, hout]
      rfl
    | inr h =>
      obtain ⟨hlen, hc1⟩ := h
      rw [hc1] at hmem
      exact absurd hmem (findEntry_none_not_mem rid cache hfind)

theorem C9_repeat_request_verbatim_witness :
    Model_GetImageData (envW 2)
        (cacheOneW ++ [cropEntryOf (envW 1) 7 ⟨0, 0, 0, 0⟩ [1]]) det7
      = (some (imageDataOf (envW 1) ⟨0, 0, 0, 0⟩ [1]),
         cacheOneW ++ [cropEntryOf (envW 1) 7 ⟨0, 0, 0, 0⟩ [1]]) :=
  C9_repeat_request_verbatim ℕ (envW 1) (envW 2) cacheOneW
    (cacheOneW ++ [cropEntryOf (envW 1) 7 ⟨0, 0, 0, 0⟩ [1]]) det7 7
    (imageDataOf (envW 1) ⟨0, 0, 0, 0⟩ [1]) rfl rfl rfl rfl (by decide)

/-- C9 counterexample: a refId requested while the cache is full is not
stored, so a repeat request (no cache reset in between) recomputes from the
then-current frame and the bytes differ. -/
theorem C9_repeat_request_counterexample :
    (Model_GetImageData (envW 1) cache5W detW6).2 = cache5W ∧
    (Model_GetImageData (envW 1) cache5W detW6).1.map ImageData.jpeg
      = some [1] ∧
    (Model_GetImageData (envW 2)
        (Model_GetImageData (envW 1) cache5W detW6).2 detW6).1.map ImageData.jpeg
      = some [2] :=
  ⟨rfl, rfl, rfl⟩

/-- One axis of the crop clamp: the final extent is at least 1, the origin
is non-negative, and — provided the origin lies strictly inside the image —
origin + extent stays within the image.  (With the origin at or past the
far edge the forced minimum extent of 1 overshoots; see the C5
counterexample.) -/
theorem clamp_axis_spec (limit border dp len0 : ℤ) (hlim : 1 ≤ limit) :
    1 ≤ clampLen limit border dp len0 ∧ 0 ≤ clampPos border dp ∧
    (clampPos border dp < limit →
      clampPos border dp + clampLen limit border dp len0 ≤ limit) := by
  simp only [clampPos, clampLen]
  split_ifs <;> omega

/-- C5 (amended): for every geometry and all border offsets, the crop
rectangle satisfies `crop_w ≥ 1`, `crop_h ≥ 1`, `crop_x ≥ 0`, `crop_y ≥ 0`,
and whenever `crop_x < imageWidth` (resp. `crop_y < imageHeight`) also
`crop_x + crop_w ≤ imageWidth` (resp. `crop_y + crop_h ≤ imageHeight`); the
containment can fail only in the degenerate case `crop_x = imageWidth`
(resp. `crop_y = imageHeight`) where the forced minimum extent of 1
overshoots by one pixel. -/
theorem C5_crop_bounds {F : Type} (env : CropEnv F) (g : DetGeom)
    (hW : 1 ≤ env.videoWidth) (hH : 1 ≤ env.videoHeight) :
    1 ≤ cropW env g ∧ 1 ≤ cropH env g ∧
    0 ≤ cropX env g ∧ 0 ≤ cropY env g ∧
    (cropX env g < env.videoWidth →
      cropX env g + cropW env g ≤ env.videoWidth) ∧
    (cropY env g < env.videoHeight →
      cropY env g + cropH env g ≤ env.videoHeight) := by
  obtain ⟨h1, h2, h3⟩ := clamp_axis_spec env.videoWidth env.leftborder
    (toPixel env.videoWidth g.x)
    (toPixel env.videoWidth g.w + env.leftborder + env.rightborder) hW
  obtain ⟨h4, h5, h6⟩ := clamp_axis_spec env.videoHeight env.topborder
    (toPixel env.videoHeight g.y)
    (toPixel env.videoHeight g.h + env.topborder + env.bottomborder) hH
  exact ⟨h1, h4, h2, h5, h3, h6⟩

theorem C5_crop_bounds_witness :
    1 ≤ cropW (envW 1) ⟨100, 100, 100, 100⟩ ∧
    0 ≤ cropX (envW 1) ⟨100, 100, 100, 100⟩ := by
  have h := C5_crop_bounds (envW 1) ⟨100, 100, 100, 100⟩
    (by decide) (by decide)
  exact ⟨h.1, h.2.2.1⟩

/-- C5 counterexample: a detection pinned at the right edge of the
normalized space (`x = 1000`, `w = 0`, no borders) yields `crop_x = 1280`
and `crop_w = 1`, so `crop_x + crop_w = 1281 > imageWidth = 1280`: the
claimed bound `crop_x + crop_w ≤ imageWidth` does not hold for all
geometry. -/
theorem C5_crop_bounds_counterexample :
    ¬ (cropX (envW 1) ⟨1000, 0, 0, 10⟩ + cropW (envW 1) ⟨1000, 0, 0, 10⟩
        ≤ (envW 1).videoWidth) := by
  have hx : toPixel (1280 : ℤ) (1000 : ℚ) = 1280 := by
    rw [toPixel, round_eq]
    rw [Int.floor_eq_iff]
    constructor <;> norm_num
  have hw : toPixel (1280 : ℤ) (0 : ℚ) = 0 := by
    rw [toPixel]
    norm_num
  simp only [cropX, cropW, envW]
  rw [hx, hw]
  decide

/-! ### Ring-buffer characterization (accuracy mode, claim C1) -/

theorem slotSpec_concat (ws : ℕ) (bs : List ℤ) (b : ℤ) (j : ℕ) :
    slotSpec ws (bs ++ [b]) j
      = if (bs.length + 1) % ws = j then b else slotSpec ws bs j := by
  simp [slotSpec, slotSpecRev, List.reverse_append]

theorem slotSpec_nil (ws j : ℕ) : slotSpec ws [] j = 0 := rfl

/-- After the pushes `bs` with `bs.length < ws`, slot `0` still holds its
initial `0`, slot `j` for `1 ≤ j ≤ bs.length` holds the `j`-th bit, and
slots past `bs.length` hold `0`. -/
theorem slotSpec_warm (ws : ℕ) (_hws : 2 ≤ ws) :
    ∀ bs : List ℤ, bs.length < ws →
      slotSpec ws bs 0 = 0 ∧
      ∀ j, 1 ≤ j →
        (j ≤ bs.length → slotSpec ws bs j = nthD 0 bs (j - 1)) ∧
        (bs.length < j → slotSpec ws bs j = 0) := by
  intro bs
  induction bs using List.reverseRecOn with
  | nil =>
    intro _
    refine ⟨rfl, fun j h1 => ⟨fun h2 => ?_, fun _ => rfl⟩⟩
    simp only [List.length_nil, Nat.le_zero] at h2
    omega
  | append_singleton bs b ih =>
    intro hlen
    have hlen' : bs.length < ws := by
      simp only [List.length_append, List.length_singleton] at hlen
      omega
    obtain ⟨ih0, ihj⟩ := ih hlen'
    have hmod : (bs.length + 1) % ws = bs.length + 1 :=
      Nat.mod_eq_of_lt (by simpa [List.length_append] using hlen)
    constructor
    · rw [slotSpec_concat, hmod, if_neg (by omega)]
      exact ih0
    · intro j hj
      rw [slotSpec_concat, hmod]
      simp only [List.length_append, List.length_singleton]
      constructor
      · intro hjle
        by_cases hje : bs.length + 1 = j
        · rw [if_pos hje]
          subst hje
          simp [nthD_append_length]
        · rw [if_neg hje]
          have hjlt : j ≤ bs.length := by omega
          rw [(ihj j hj).1 hjlt]
          rw [nthD_append_left 0 bs [b] (j - 1) (by omega)]
      · intro hjgt
        rw [if_neg (by omega)]
        exact (ihj j hj).2 (by omega)

/-- Any position inside the last `ws` pushes determines its slot: the slot
`(i+1) % ws` holds the bit pushed at (0-based) position `i`. -/
theorem slotSpec_window (ws : ℕ) (_hws : 1 ≤ ws) :
    ∀ (bs : List ℤ) (i : ℕ), i < bs.length → bs.length - i ≤ ws →
      slotSpec ws bs ((i + 1) % ws) = nthD 0 bs i := by
  intro bs
  induction bs using List.reverseRecOn with
  | nil => intro i hi; simp at hi
  | append_singleton bs b ih =>
    intro i hi hwin
    simp only [List.length_append, List.length_singleton] at hi hwin
    rw [slotSpec_concat]
    by_cases hie : i = bs.length
    · subst hie
      rw [if_pos rfl]
      simp [nthD_append_length]
    · have hilt : i < bs.length := by omega
      have hne : (bs.length + 1) % ws ≠ (i + 1) % ws := by
        intro heq
        have hmodeq : ws ∣ (bs.length + 1) - (i + 1) :=
          (Nat.modEq_iff_dvd' (by omega)).mp heq.symm
        have hd1 : 1 ≤ (bs.length + 1) - (i + 1) := by omega
        have hd2 : (bs.length + 1) - (i + 1) < ws := by omega
        have := Nat.le_of_dvd (by omega) hmodeq
        omega
      rw [if_neg hne]
      rw [ih i hilt (by omega)]
      rw [nthD_append_left 0 bs [b] i hilt]

/-- Once at least `ws` bits have been pushed, summing the first `ws` slots
gives exactly the sum of the last `ws` pushed bits. -/
theorem sumSlots_slotSpec_full (ws : ℕ) (hws : 2 ≤ ws) :
    ∀ (n : ℕ) (bs : List ℤ), bs.length = n → ws ≤ n →
      sumSlots (slotSpec ws bs) ws = windowSum ws bs := by
  intro n
  induction n with
  | zero => intro bs _ hle; omega
  | succ m ih =>
    intro bs hn hle
    rcases List.eq_nil_or_concat' bs with hnil | ⟨bs', b, hcat⟩
    · subst hnil; simp at hn
    · subst hcat
      simp only [List.length_append, List.length_singleton] at hn
      have hbs' : bs'.length = m := by omega
      by_cases hbase : ws = m + 1
      · -- the ring has just filled: every slot holds one of the bits
        have hlen' : bs'.length < ws := by omega
        obtain ⟨w0, wj⟩ := slotSpec_warm ws hws bs' hlen'
        have hmod : (bs'.length + 1) % ws = 0 := by
          rw [hbs', hbase]
          simp
        have hshift := sumSlots_shift (slotSpec ws (bs' ++ [b])) (ws - 1)
        have hws1 : ws - 1 + 1 = ws := by omega
        rw [hws1] at hshift
        rw [hshift]
        have h0 : slotSpec ws (bs' ++ [b]) 0 = b := by
          rw [slotSpec_concat, hmod, if_pos rfl]
        have hrest : sumSlots (fun i => slotSpec ws (bs' ++ [b]) (i + 1)) (ws - 1)
            = sumSlots (fun i => nthD 0 bs' i) (ws - 1) := by
          apply sumSlots_congr
          intro j hj
          rw [slotSpec_concat, hmod, if_neg (by omega)]
          have := (wj (j + 1) (by omega)).1 (by omega)
          simpa using this
        rw [h0, hrest]
        have hsum : sumSlots (fun i => nthD 0 bs' i) (ws - 1) = bs'.sum := by
          have : ws - 1 = bs'.length := by omega
          rw [this]
          exact sumSlots_nthD bs'
        rw [hsum]
        simp only [windowSum, List.length_append, List.length_singleton]
        rw [show bs'.length + 1 - ws = 0 by omega]
        simp
        ring
      · -- the window slides: one slot is overwritten
        have hlt : ws ≤ m := by omega
        have hmodlt : (bs'.length + 1) % ws < ws := Nat.mod_lt _ (by omega)
        have hupd : ∀ j < ws, slotSpec ws (bs' ++ [b]) j
            = updFn (slotSpec ws bs') ((bs'.length + 1) % ws) b j := by
          intro j _
          rw [slotSpec_concat, updFn]
          by_cases hje : (bs'.length + 1) % ws = j
          · rw [if_pos hje, if_pos hje.symm]
          · rw [if_neg hje, if_neg (fun hh => hje hh.symm)]
        have hcong : sumSlots (slotSpec ws (bs' ++ [b])) ws
            = sumSlots (updFn (slotSpec ws bs') ((bs'.length + 1) % ws) b) ws :=
          sumSlots_congr _ _ _ hupd
        rw [hcong, sumSlots_updFn _ _ _ _ hmodlt]
        have hdrop : slotSpec ws bs' ((bs'.length + 1) % ws)
            = nthD 0 bs' (bs'.length - ws) := by
          have harith : (bs'.length - ws + 1) % ws = (bs'.length + 1) % ws := by
            have : bs'.length - ws + 1 + ws = bs'.length + 1 := by omega
            calc (bs'.length - ws + 1) % ws = (bs'.length - ws + 1 + ws) % ws :=
                  (Nat.add_mod_right _ _).symm
            _ = (bs'.length + 1) % ws := by rw [this]
          rw [← harith]
          exact slotSpec_window ws (by omega) bs' (bs'.length - ws)
            (by omega) (by omega)
        rw [hdrop, ih bs' hbs' (by omega)]
        -- windowSum relation: new window = old window minus its head plus `b`
        have hold : windowSum ws bs'
            = nthD 0 bs' (bs'.length - ws) + (List.drop (bs'.length - ws + 1) bs').sum := by
          rw [windowSum, drop_eq_nthD_cons 0 bs' (bs'.length - ws) (by omega)]
          simp
        have hnew : windowSum ws (bs' ++ [b])
            = (List.drop (bs'.length - ws + 1) bs').sum + b := by
          simp only [windowSum, List.length_append, List.length_singleton]
          rw [show bs'.length + 1 - ws = bs'.length - ws + 1 by omega]
          rw [drop_append_le bs' [b] (bs'.length - ws + 1) (by omega)]
          simp
        rw [hold, hnew]
        ring

theorem bitsOf_append (cycles : List (ℤ × Bool)) (c : ℤ × Bool) :
    bitsOf (cycles ++ [c]) = bitsOf cycles ++ [if c.2 then 1 else 0] := by
  simp [bitsOf]

/-- The ring components of the accuracy-mode cycle update are exactly one
push of the presence bit; the state/time updates do not touch them. -/
theorem accCycleDet_ring (ws mf : ℕ) (now : ℤ) (det : Bool)
    (st : LabelEventState) :
    (accCycleDet ws mf now det st).rolling_head = (st.rolling_head + 1) % ws ∧
    (accCycleDet ws mf now det st).rolling_count
      = (if st.rolling_count < ws then st.rolling_count + 1
         else st.rolling_count) ∧
    (accCycleDet ws mf now det st).rolling
      = updFn st.rolling ((st.rolling_head + 1) % ws) (if det then 1 else 0) := by
  cases det with
  | false =>
    refine ⟨rfl, rfl, ?_⟩
    simp [accCycleDet, accZeroUpdate, pushSlot]
  | true =>
    simp only [accCycleDet, accUpdate, if_true]
    split <;> exact ⟨rfl, rfl, by simp [pushSlot]⟩

/-- Ring-buffer invariant of an accuracy-mode trace from a fresh label
state: the head, the fill count and every slot are determined by the pushed
presence bits. -/
theorem runAcc_ring (ws mf : ℕ) (hws : 2 ≤ ws) (name : String) :
    ∀ cycles : List (ℤ × Bool),
      (runAcc ws mf cycles (freshLabel name)).rolling_head
        = (bitsOf cycles).length % ws ∧
      (runAcc ws mf cycles (freshLabel name)).rolling_count
        = min (bitsOf cycles).length ws ∧
      ∀ j, (runAcc ws mf cycles (freshLabel name)).rolling j
        = slotSpec ws (bitsOf cycles) j := by
  intro cycles
  induction cycles using List.reverseRecOn with
  | nil =>
    refine ⟨by simp [runAcc, freshLabel, bitsOf], by simp [runAcc, freshLabel, bitsOf], ?_⟩
    intro j
    simp [runAcc, freshLabel, bitsOf, slotSpec_nil]
  | append_singleton cycles c ih =>
    obtain ⟨ihh, ihc, ihr⟩ := ih
    have hfold : runAcc ws mf (cycles ++ [c]) (freshLabel name)
        = accCycleDet ws mf c.1 c.2 (runAcc ws mf cycles (freshLabel name)) := by
      simp [runAcc, List.foldl_append]
    obtain ⟨hH, hC, hR⟩ := accCycleDet_ring ws mf c.1 c.2
      (runAcc ws mf cycles (freshLabel name))
    have hlen : (bitsOf (cycles ++ [c])).length = (bitsOf cycles).length + 1 := by
      simp [bitsOf]
    have hmod1 : (1 : ℕ) % ws = 1 := Nat.mod_eq_of_lt (by omega)
    have hmod : ((bitsOf cycles).length % ws + 1) % ws
        = ((bitsOf cycles).length + 1) % ws := by
      conv_rhs => rw [Nat.add_mod]
      rw [hmod1]
    refine ⟨?_, ?_, ?_⟩
    · rw [hfold, hH, ihh, hlen, hmod]
    · rw [hfold, hC, ihc, hlen]
      split_ifs <;> omega
    · intro j
      rw [hfold, hR, ihh]
      rw [bitsOf_append, slotSpec_concat]
      rw [updFn, hmod]
      by_cases hje : ((bitsOf cycles).length + 1) % ws = j
      · rw [if_pos hje.symm, if_pos hje]
      · rw [if_neg (fun hh => hje hh.symm), if_neg hje, ihr j]

/-- The accuracy-mode cycle update never touches the `state` field except
through the LOW→HIGH transition check. -/
theorem accCycleDet_state (ws mf : ℕ) (now : ℤ) (st : LabelEventState) :
    (accCycleDet ws mf now false st).state = st.state ∧
    ((accCycleDet ws mf now true st).state = true ↔
      (st.state = true ∨ (mf : ℤ) ≤ ringSum (pushSlot ws 1 st))) := by
  constructor
  · rfl
  · simp only [accCycleDet, accUpdate, if_true]
    split
    · rename_i hcond
      simp only [true_iff]
      exact Or.inr hcond.2
    · rename_i hcond
      constructor
      · intro h; exact Or.inl h
      · intro h
        rcases h with h | h
        · exact h
        · rcases Bool.eq_false_or_eq_true st.state with ht | hf
          · exact ht
          · exact absurd ⟨hf, h⟩ hcond

/-- C1 (amended): in accuracy mode with `window_size = 4` and
`min_frames_in_window = 3`, once at least `window_size` cycles have pushed
bits (so the ring is full after the next push), a LOW label transitions to
HIGH on a detection cycle exactly when at least 3 of the last 4 presence
bits (including the current cycle) are 1 — i.e. when the ring-buffer sum
reaches the minimum frame count; a cycle without a detection never raises
the label.  During the initial ring fill the newest push sits outside the
summed prefix (slot 0 still holds its initial 0), so the transition is
deferred — see the counterexample. -/
theorem C1_rolling_window_transition (cycles : List (ℤ × Bool)) (name : String)
    (t : ℤ) (hlen : 3 ≤ cycles.length)
    (hlow : (runAcc 4 3 cycles (freshLabel name)).state = false) :
    ((runAcc 4 3 (cycles ++ [(t, true)]) (freshLabel name)).state = true ↔
      (3 : ℤ) ≤ windowSum 4 (bitsOf cycles ++ [1])) ∧
    (runAcc 4 3 (cycles ++ [(t, false)]) (freshLabel name)).state = false := by
  have hfoldT : runAcc 4 3 (cycles ++ [(t, true)]) (freshLabel name)
      = accCycleDet 4 3 t true (runAcc 4 3 cycles (freshLabel name)) := by
    simp [runAcc, List.foldl_append]
  have hfoldF : runAcc 4 3 (cycles ++ [(t, false)]) (freshLabel name)
      = accCycleDet 4 3 t false (runAcc 4 3 cycles (freshLabel name)) := by
    simp [runAcc, List.foldl_append]
  have hbits : bitsOf (cycles ++ [(t, true)]) = bitsOf cycles ++ [1] := by
    simp [bitsOf]
  have hblen : (bitsOf cycles).length = cycles.length := by simp [bitsOf]
  have hcomp : ringSum (pushSlot 4 1 (runAcc 4 3 cycles (freshLabel name)))
      = windowSum 4 (bitsOf cycles ++ [1]) := by
    obtain ⟨hh', hc', hr'⟩ := runAcc_ring 4 3 (by omega) name (cycles ++ [(t, true)])
    rw [hfoldT] at hc' hr'
    have heq1 : (accCycleDet 4 3 t true (runAcc 4 3 cycles (freshLabel name))).rolling
        = (pushSlot 4 1 (runAcc 4 3 cycles (freshLabel name))).rolling := by
      simp only [accCycleDet, accUpdate, if_true]
      split <;> rfl
    have heq2 : (accCycleDet 4 3 t true (runAcc 4 3 cycles (freshLabel name))).rolling_count
        = (pushSlot 4 1 (runAcc 4 3 cycles (freshLabel name))).rolling_count := by
      simp only [accCycleDet, accUpdate, if_true]
      split <;> rfl
    rw [heq1] at hr'
    rw [heq2] at hc'
    have hc4 : (pushSlot 4 1 (runAcc 4 3 cycles (freshLabel name))).rolling_count = 4 := by
      rw [hc', hbits]
      simp only [List.length_append, List.length_singleton, hblen]
      omega
    rw [ringSum, hc4]
    have hsum := sumSlots_congr
      (pushSlot 4 1 (runAcc 4 3 cycles (freshLabel name))).rolling
      (slotSpec 4 (bitsOf (cycles ++ [(t, true)]))) 4 (fun j _ => hr' j)
    rw [hsum, ← hbits]
    refine sumSlots_slotSpec_full 4 (by omega) (bitsOf (cycles ++ [(t, true)])).length
      _ rfl ?_
    rw [hbits]
    simp only [List.length_append, List.length_singleton, hblen]
    omega
  constructor
  · rw [hfoldT, (accCycleDet_state 4 3 t (runAcc 4 3 cycles (freshLabel name))).2,
      hlow, hcomp]
    simp
  · rw [hfoldF, (accCycleDet_state 4 3 t (runAcc 4 3 cycles (freshLabel name))).1,
      hlow]

/-- C1 counterexample: a fresh label detected on 3 consecutive cycles — its
3rd detection within the last 4 cycles happens on cycle 3, and indeed all 3
of the last presence bits are 1 — is still LOW after cycle 3: the code's
ring-buffer sum only reaches 2 there (slot 0 still holds its initial 0), so
the claimed transition on exactly that cycle does not happen. -/
theorem C1_rolling_window_counterexample :
    (runAcc 4 3 [(0, true), (0, true), (0, true)] (freshLabel "hand")).state
      = false ∧
    windowSum 4 (bitsOf [(0, true), (0, true), (0, true)]) = 3 ∧
    ringSum (runAcc 4 3 [(0, true), (0, true), (0, true)] (freshLabel "hand")) = 2 := by
  refine ⟨by decide, by decide, by decide⟩

theorem C1_rolling_window_transition_witness :
    ((runAcc 4 3 ([(0, true), (0, true), (0, false)] ++ [((0 : ℤ), true)])
        (freshLabel "hand")).state = true ↔
      (3 : ℤ) ≤ windowSum 4 (bitsOf [(0, true), (0, true), (0, false)] ++ [1])) ∧
    (runAcc 4 3 ([(0, true), (0, true), (0, false)] ++ [((0 : ℤ), false)])
        (freshLabel "hand")).state = false :=
  C1_rolling_window_transition [(0, true), (0, true), (0, false)] "hand" 0
    (by decide) (by decide)

/-- C8 (amended): the per-cycle `window_size` is always clamped into
`[2, MAX_ROLLING]`, and along every accuracy-mode trace whose per-cycle
window sizes stay at most `MAX_ROLLING` the ring fill count never exceeds
`MAX_ROLLING = 16`.  The stronger bound `rolling_count ≤ window_size` of
the claim is NOT invariant when the recomputed window size shrinks — see
the counterexample. -/
theorem C8_window_invariant :
    (∀ (d : ℤ) (avg : ℚ),
      2 ≤ windowSizeOf d avg ∧ windowSizeOf d avg ≤ (MAX_ROLLING : ℤ)) ∧
    (∀ (mf : ℕ) (cycles : List (ℕ × ℤ × Bool)) (st : LabelEventState),
      st.rolling_count ≤ MAX_ROLLING →
      (∀ c ∈ cycles, c.1 ≤ MAX_ROLLING) →
      (runAccW mf cycles st).rolling_count ≤ MAX_ROLLING) := by
  constructor
  · intro d avg
    simp only [windowSizeOf, MAX_ROLLING]
    split_ifs <;> constructor <;> omega
  · intro mf cycles
    induction cycles with
    | nil => intro st h _; exact h
    | cons c rest ih =>
      intro st h hall
      have hc1 : c.1 ≤ MAX_ROLLING := hall c (List.mem_cons_self c rest)
      have hstep : (accCycleDet c.1 mf c.2.1 c.2.2 st).rolling_count
          ≤ MAX_ROLLING := by
        obtain ⟨_, hC, _⟩ := accCycleDet_ring c.1 mf c.2.1 c.2.2 st
        rw [hC]
        split_ifs <;> omega
      have hfold : runAccW mf (c :: rest) st
          = runAccW mf rest (accCycleDet c.1 mf c.2.1 c.2.2 st) := by
        simp [runAccW]
      rw [hfold]
      exact ih _ hstep (fun c' hc' => hall c' (List.mem_cons_of_mem c hc'))

/-- C8 counterexample: three detections with `window_size = 3` fill the
count to 3; a following cycle recomputed with `window_size = 2` leaves
`rolling_count = 3 > 2`, so `rolling_count ≤ window_size` does not survive
a window-size shrink. -/
theorem C8_window_invariant_counterexample :
    (runAccW 3 [(3, 0, true), (3, 0, true), (3, 0, true), (2, 0, true)]
        (freshLabel "hand")).rolling_count = 3 ∧
    ¬ ((runAccW 3 [(3, 0, true), (3, 0, true), (3, 0, true), (2, 0, true)]
        (freshLabel "hand")).rolling_count ≤ 2) :=
  ⟨by decide, by decide⟩

theorem C8_window_invariant_witness :
    (runAccW 3 [(3, (0 : ℤ), true), (2, 0, true)]
        (freshLabel "g")).rolling_count ≤ MAX_ROLLING :=
  C8_window_invariant.2 3 [(3, 0, true), (2, 0, true)] (freshLabel "g")
    (by decide) (by decide)

/-! ### Event-gate structural lemmas (claims C6 and C7) -/

theorem nthD_mem {α : Type} (d : α) (l : List α) (i : Nat) (h : i < l.length) :
    nthD d l i ∈ l := by
  induction l generalizing i with
  | nil => simp at h
  | cons a as ih =>
    cases i with
    | zero => exact List.mem_cons_self a as
    | succ n =>
      exact List.mem_cons_of_mem a (ih n (by simpa using Nat.lt_of_succ_lt_succ h))

theorem updDet_name (cfg : GateCfg) (now : ℤ) (st : LabelEventState) :
    (updDet cfg now st).name = st.name := by
  by_cases hs : cfg.speed
  · simp [updDet, hs, speedUpdate]
  · simp only [updDet, hs, Bool.false_eq_true, if_false, accUpdate]
    split <;> rfl

theorem updDet_state_mono (cfg : GateCfg) (now : ℤ) (st : LabelEventState)
    (h : st.state = true) : (updDet cfg now st).state = true := by
  by_cases hs : cfg.speed
  · simp [updDet, hs, speedUpdate]
  · simp only [updDet, hs, Bool.false_eq_true, if_false, accUpdate]
    split
    · rfl
    · simpa [pushSlot] using h

/-- First-match characterization of `applyFirst`: exactly one entry — the
first one named `label` — is replaced by its `f`-image. -/
theorem applyFirst_some_spec (d : LabelEventState) (label : String)
    (f : LabelEventState → LabelEventState) :
    ∀ (ls ls'' : List LabelEventState), applyFirst label f ls = some ls'' →
      ls''.length = ls.length ∧
      ∃ k, k < ls.length ∧ (nthD d ls k).name = label ∧
        nthD d ls'' k = f (nthD d ls k) ∧
        (∀ i, i < ls.length → i ≠ k → nthD d ls'' i = nthD d ls i) := by
  intro ls
  induction ls with
  | nil => intro ls'' h; simp [applyFirst] at h
  | cons st rest ih =>
    intro ls'' h
    simp only [applyFirst] at h
    by_cases hn : st.name = label
    · rw [if_pos hn] at h
      have hls : ls'' = f st :: rest := (Option.some.inj h).symm
      subst hls
      refine ⟨by simp, 0, by simp, hn, rfl, ?_⟩
      intro i hi hne
      cases i with
      | zero => exact absurd rfl hne
      | succ n => rfl
    · rw [if_neg hn] at h
      cases hrest : applyFirst label f rest with
      | none => rw [hrest] at h; simp at h
      | some rs =>
        rw [hrest] at h
        simp only [Option.map_some'] at h
        have hls : ls'' = st :: rs := (Option.some.inj h).symm
        subst hls
        obtain ⟨hlen, k, hk, hkname, hkval, hother⟩ := ih rs hrest
        refine ⟨by simp [hlen], k + 1,
          by simpa using Nat.succ_lt_succ hk, hkname, hkval, ?_⟩
        intro i hi hne
        cases i with
        | zero => rfl
        | succ n =>
          exact hother n (by simpa using Nat.lt_of_succ_lt_succ hi)
            (fun hh => hne (by rw [hh]))

theorem applyFirst_none (label : String) (f : LabelEventState → LabelEventState) :
    ∀ ls : List LabelEventState, applyFirst label f ls = none →
      ∀ st ∈ ls, st.name ≠ label := by
  intro ls
  induction ls with
  | nil => intro _ st hst; simp at hst
  | cons st rest ih =>
    intro h st' hst'
    simp only [applyFirst] at h
    by_cases hn : st.name = label
    · rw [if_pos hn] at h; simp at h
    · rw [if_neg hn] at h
      rcases List.mem_cons.mp hst' with he | hm
      · subst he; exact hn
      · cases hrest : applyFirst label f rest with
        | none => exact ih hrest st' hm
        | some rs => rw [hrest] at h; simp at h

theorem Ext_refl (ls : List LabelEventState) : Ext ls ls :=
  ⟨le_refl _, fun _ _ => ⟨rfl, fun h => h⟩⟩

theorem Ext_trans (l1 l2 l3 : List LabelEventState)
    (h12 : Ext l1 l2) (h23 : Ext l2 l3) : Ext l1 l3 := by
  obtain ⟨hl12, h12⟩ := h12
  obtain ⟨hl23, h23⟩ := h23
  refine ⟨le_trans hl12 hl23, fun i hi => ?_⟩
  obtain ⟨hn12, hs12⟩ := h12 i hi
  obtain ⟨hn23, hs23⟩ := h23 i (Nat.lt_of_lt_of_le hi hl12)
  exact ⟨hn23.trans hn12, fun h => hs23 (hs12 h)⟩

theorem processDet_ext (cfg : GateCfg) (now : ℤ) (ls : List LabelEventState)
    (label : String) : Ext ls (processDet cfg now ls label) := by
  cases happ : applyFirst label (updDet cfg now) ls with
  | some ls'' =>
    have hred : processDet cfg now ls label = ls'' := by
      simp [processDet, happ]
    rw [hred]
    obtain ⟨hlen, k, hk, _, hkval, hother⟩ :=
      applyFirst_some_spec (freshLabel "") label (updDet cfg now) ls ls'' happ
    refine ⟨le_of_eq hlen.symm, fun i hi => ?_⟩
    by_cases hik : i = k
    · subst hik
      rw [hkval]
      exact ⟨updDet_name cfg now _, fun h => updDet_state_mono cfg now _ h⟩
    · rw [hother i hi hik]
      exact ⟨rfl, fun h => h⟩
  | none =>
    have hred : processDet cfg now ls label
        = if ls.length < MAX_LABELS then
            ls ++ [updDet cfg now (freshLabel label)]
          else ls := by
      simp [processDet, happ]
    rw [hred]
    split
    · refine ⟨by simp, fun i hi => ?_⟩
      rw [nthD_append_left (freshLabel "") ls _ i hi]
      exact ⟨rfl, fun h => h⟩
    · exact Ext_refl ls

theorem foldl_processDet_ext (cfg : GateCfg) (now : ℤ) :
    ∀ (dets : List String) (ls : List LabelEventState),
      Ext ls (dets.foldl (processDet cfg now) ls) := by
  intro dets
  induction dets with
  | nil => intro ls; exact Ext_refl ls
  | cons dlab rest ih =>
    intro ls
    have h1 := processDet_ext cfg now ls dlab
    have h2 := ih (processDet cfg now ls dlab)
    simpa [List.foldl_cons] using Ext_trans _ _ _ h1 h2

theorem rollZeros_ext (ws : ℕ) (frameLabels : List String)
    (ls : List LabelEventState) : Ext ls (rollZeros ws frameLabels ls) := by
  refine ⟨by simp [rollZeros], fun i hi => ?_⟩
  rw [rollZeros, nthD_map (freshLabel "") (freshLabel "") _ ls i hi]
  split
  · exact ⟨rfl, fun h => h⟩
  · exact ⟨rfl, fun h => h⟩

/-- C6: the detection-processing path (`Output`) never takes a label from
HIGH to LOW, in either mode; the timeout sweep takes a HIGH label to LOW
exactly when `now - last_detect_time` strictly exceeds the configured
minimum event duration, and emits a falling event for exactly those
labels. -/
theorem C6_only_sweep_lowers :
    (∀ (cfg : GateCfg) (now : ℤ) (dets : List String)
        (ls : List LabelEventState), Ext ls (Output cfg now dets ls)) ∧
    (∀ (now minDur : ℤ) (ls : List LabelEventState) (i : ℕ), i < ls.length →
      nthD (freshLabel "") (Output_DeactivateExpired now minDur ls).1 i
        = (if (nthD (freshLabel "") ls i).state = true ∧
              now - (nthD (freshLabel "") ls i).last_detect_time > minDur
           then { nthD (freshLabel "") ls i with state := false }
           else nthD (freshLabel "") ls i)) ∧
    (∀ (now minDur : ℤ) (ls : List LabelEventState) (ev : String × Bool),
      ev ∈ (Output_DeactivateExpired now minDur ls).2 ↔
        ∃ st ∈ ls, st.state = true ∧ now - st.last_detect_time > minDur ∧
          ev = (st.name, false)) := by
  refine ⟨?_, ?_, ?_⟩
  · intro cfg now dets ls
    rw [Output]
    split
    · exact Ext_refl ls
    · split
      · exact foldl_processDet_ext cfg now dets ls
      · exact Ext_trans _ _ _ (foldl_processDet_ext cfg now dets ls)
          (rollZeros_ext cfg.ws (dets.take MAX_LABELS) _)
  · intro now minDur ls i hi
    show nthD (freshLabel "") (ls.map (sweepEntry now minDur)) i = _
    rw [nthD_map (freshLabel "") (freshLabel "") _ ls i hi]
    rfl
  · intro now minDur ls ev
    show ev ∈ ((ls.filter _).map _) ↔ _
    simp only [List.mem_map, List.mem_filter, Bool.and_eq_true,
      decide_eq_true_eq]
    constructor
    · rintro ⟨st, ⟨hmem, hstate, hdur⟩, hev⟩
      exact ⟨st, hmem, hstate, hdur, hev.symm⟩
    · rintro ⟨st, hmem, hstate, hdur, hev⟩
      exact ⟨st, ⟨hmem, hstate, hdur⟩, hev.symm⟩

theorem C6_only_sweep_lowers_witness :
    nthD (freshLabel "") (Output_DeactivateExpired 4000 3000 [stHigh]).1 0
      = (if stHigh.state = true ∧ 4000 - stHigh.last_detect_time > 3000
         then { stHigh with state := false } else stHigh) :=
  C6_only_sweep_lowers.2.1 4000 3000 [stHigh] 0 (by decide)

theorem list_ext_nthD {α : Type} (d : α) :
    ∀ (l l' : List α), l.length = l'.length →
      (∀ i, i < l.length → nthD d l i = nthD d l' i) → l = l' := by
  intro l
  induction l with
  | nil =>
    intro l' hlen _
    cases l' with
    | nil => rfl
    | cons b bs => simp at hlen
  | cons a as ih =>
    intro l' hlen h
    cases l' with
    | nil => simp at hlen
    | cons b bs =>
      have h0 := h 0 (Nat.succ_pos _)
      have hr := ih bs (by simpa using hlen)
        (fun i hi => h (i + 1) (by simpa using Nat.succ_lt_succ hi))
      simp only [nthD] at h0
      rw [h0, hr]

theorem nodup_nthD_name_ne (d : LabelEventState) :
    ∀ (ls : List LabelEventState) (i j : ℕ),
      (ls.map LabelEventState.name).Nodup → i < ls.length → j < ls.length →
      i ≠ j → (nthD d ls i).name ≠ (nthD d ls j).name := by
  intro ls
  induction ls with
  | nil => intro i j _ hi; simp at hi
  | cons st rest ih =>
    intro i j hnd hi hj hne
    rw [List.map_cons, List.nodup_cons] at hnd
    obtain ⟨hnotin, hnd'⟩ := hnd
    cases i with
    | zero =>
      cases j with
      | zero => exact absurd rfl hne
      | succ m =>
        intro heq
        apply hnotin
        simp only [nthD] at heq
        rw [heq]
        exact List.mem_map_of_mem _
          (nthD_mem d rest m (by simpa using Nat.lt_of_succ_lt_succ hj))
    | succ n =>
      cases j with
      | zero =>
        intro heq
        apply hnotin
        simp only [nthD] at heq
        rw [← heq]
        exact List.mem_map_of_mem _
          (nthD_mem d rest n (by simpa using Nat.lt_of_succ_lt_succ hi))
      | succ m =>
        exact ih n m hnd' (by simpa using Nat.lt_of_succ_lt_succ hi)
          (by simpa using Nat.lt_of_succ_lt_succ hj)
          (fun hh => hne (by rw [hh]))

/-- With unique label names, one `Output`-loop detection updates exactly the
entry carrying its label and leaves every other tracked entry unchanged. -/
theorem processDet_nthD (cfg : GateCfg) (now : ℤ) (ls : List LabelEventState)
    (label : String) (i : ℕ)
    (hnd : (ls.map LabelEventState.name).Nodup) (hi : i < ls.length) :
    nthD (freshLabel "") (processDet cfg now ls label) i
      = (if (nthD (freshLabel "") ls i).name = label
         then updDet cfg now (nthD (freshLabel "") ls i)
         else nthD (freshLabel "") ls i) := by
  cases happ : applyFirst label (updDet cfg now) ls with
  | some ls'' =>
    have hred : processDet cfg now ls label = ls'' := by
      simp [processDet, happ]
    rw [hred]
    obtain ⟨hlen, k, hk, hkname, hkval, hother⟩ :=
      applyFirst_some_spec (freshLabel "") label (updDet cfg now) ls ls'' happ
    by_cases hik : i = k
    · subst hik
      rw [hkval, if_pos hkname]
    · have hne : (nthD (freshLabel "") ls i).name ≠ label := by
        intro heq
        exact nodup_nthD_name_ne (freshLabel "") ls i k hnd hi hk hik
          (heq.trans hkname.symm)
      rw [hother i hi hik, if_neg hne]
  | none =>
    have hne : (nthD (freshLabel "") ls i).name ≠ label :=
      applyFirst_none label (updDet cfg now) ls happ _ (nthD_mem _ ls i hi)
    rw [if_neg hne]
    have hred : processDet cfg now ls label
        = if ls.length < MAX_LABELS then
            ls ++ [updDet cfg now (freshLabel label)]
          else ls := by
      simp [processDet, happ]
    rw [hred]
    split
    · rw [nthD_append_left (freshLabel "") ls _ i hi]
    · rfl

theorem processDet_names (cfg : GateCfg) (now : ℤ) (ls : List LabelEventState)
    (label : String) :
    (processDet cfg now ls label).map LabelEventState.name
      = ls.map LabelEventState.name ∨
    ((processDet cfg now ls label).map LabelEventState.name
        = ls.map LabelEventState.name ++ [label] ∧
      label ∉ ls.map LabelEventState.name) := by
  cases happ : applyFirst label (updDet cfg now) ls with
  | some ls'' =>
    left
    have hred : processDet cfg now ls label = ls'' := by
      simp [processDet, happ]
    rw [hred]
    obtain ⟨hlen, k, hk, hkname, hkval, hother⟩ :=
      applyFirst_some_spec (freshLabel "") label (updDet cfg now) ls ls'' happ
    apply list_ext_nthD ""
    · simp [hlen]
    · intro i hi
      have hi'' : i < ls''.length := by simpa [hlen] using hi
      have hi' : i < ls.length := by
        rw [← hlen]; exact hi''
      rw [nthD_map (freshLabel "") "" _ ls'' i hi'',
        nthD_map (freshLabel "") "" _ ls i hi']
      by_cases hik : i = k
      · subst hik
        rw [hkval, updDet_name]
      · rw [hother i hi' hik]
  | none =>
    have hred : processDet cfg now ls label
        = if ls.length < MAX_LABELS then
            ls ++ [updDet cfg now (freshLabel label)]
          else ls := by
      simp [processDet, happ]
    rw [hred]
    have hnotin : label ∉ ls.map LabelEventState.name := by
      intro hmem
      obtain ⟨st, hst, hname⟩ := List.mem_map.mp hmem
      exact applyFirst_none label (updDet cfg now) ls happ st hst hname
    split
    · right
      refine ⟨?_, hnotin⟩
      rw [List.map_append, List.map_singleton, updDet_name]
      rfl
    · left; rfl

theorem processDet_nodup (cfg : GateCfg) (now : ℤ) (ls : List LabelEventState)
    (label : String) (hnd : (ls.map LabelEventState.name).Nodup) :
    ((processDet cfg now ls label).map LabelEventState.name).Nodup := by
  rcases processDet_names cfg now ls label with h | ⟨h, hnotin⟩
  · rw [h]; exact hnd
  · rw [h]
    simp only [List.nodup_append, List.nodup_cons, List.not_mem_nil,
      not_false_iff, List.nodup_nil, true_and, and_true]
    constructor
    · exact hnd
    · intro x hx hx'
      simp only [List.mem_singleton] at hx'
      subst hx'
      exact hnotin hx

theorem processDet_length_ge (cfg : GateCfg) (now : ℤ)
    (ls : List LabelEventState) (label : String) :
    ls.length ≤ (processDet cfg now ls label).length :=
  (processDet_ext cfg now ls label).1

theorem foldl_updDet_name (cfg : GateCfg) (now : ℤ) :
    ∀ (l : List String) (st : LabelEventState),
      (l.foldl (fun st _ => updDet cfg now st) st).name = st.name := by
  intro l
  induction l with
  | nil => intro st; rfl
  | cons x xs ih =>
    intro st
    simp only [List.foldl_cons]
    rw [ih (updDet cfg now st), updDet_name]

/-- Localization of the `Output` detections loop, under unique label names:
the final value of tracked entry `i` is its original value folded through
one `updDet` per detection bearing its label. -/
theorem foldl_processDet_nthD (cfg : GateCfg) (now : ℤ) :
    ∀ (dets : List String) (ls : List LabelEventState) (i : ℕ),
      (ls.map LabelEventState.name).Nodup → i < ls.length →
      nthD (freshLabel "") (dets.foldl (processDet cfg now) ls) i
        = (dets.filter (fun l => l == (nthD (freshLabel "") ls i).name)).foldl
            (fun st _ => updDet cfg now st) (nthD (freshLabel "") ls i) := by
  intro dets
  induction dets with
  | nil => intro ls i _ _; rfl
  | cons dlab rest ih =>
    intro ls i hnd hi
    have hstep := processDet_nthD cfg now ls dlab i hnd hi
    have hnd' := processDet_nodup cfg now ls dlab hnd
    have hi' : i < (processDet cfg now ls dlab).length :=
      Nat.lt_of_lt_of_le hi (processDet_length_ge cfg now ls dlab)
    have hrec := ih (processDet cfg now ls dlab) i hnd' hi'
    simp only [List.foldl_cons]
    rw [hrec, hstep]
    by_cases hb : (nthD (freshLabel "") ls i).name = dlab
    · rw [if_pos hb]
      have hname : (updDet cfg now (nthD (freshLabel "") ls i)).name
          = (nthD (freshLabel "") ls i).name := updDet_name cfg now _
      rw [hname]
      have hfc : List.filter (fun l => l == (nthD (freshLabel "") ls i).name)
          (dlab :: rest)
          = dlab :: List.filter (fun l => l == (nthD (freshLabel "") ls i).name)
              rest := by
        simp [List.filter_cons, hb.symm]
      rw [hfc]
      rfl
    · rw [if_neg hb]
      have hfc : List.filter (fun l => l == (nthD (freshLabel "") ls i).name)
          (dlab :: rest)
          = List.filter (fun l => l == (nthD (freshLabel "") ls i).name) rest := by
        simp only [List.filter_cons]
        rw [if_neg]
        simp only [beq_iff_eq]
        exact fun hh => hb hh.symm
      rw [hfc]

theorem rollZeros_nthD (ws : ℕ) (frameLabels : List String)
    (ls : List LabelEventState) (i : ℕ) (hi : i < ls.length) :
    nthD (freshLabel "") (rollZeros ws frameLabels ls) i
      = (if frameLabels.contains (nthD (freshLabel "") ls i).name
         then nthD (freshLabel "") ls i
         else accZeroUpdate ws (nthD (freshLabel "") ls i)) := by
  rw [rollZeros, nthD_map (freshLabel "") (freshLabel "") _ ls i hi]

/-- C7 (amended): a cycle with an empty (or null) detection list returns
early and pushes nothing; on a cycle with a non-empty list, in accuracy
mode, every tracked label receives one ring push per detection bearing its
label (each a 1-push via `accUpdate`), followed by a single 0-push exactly
when the label is not among the frame's first `MAX_LABELS` detection
labels. -/
theorem C7_presence_pushes :
    (∀ (cfg : GateCfg) (now : ℤ) (ls : List LabelEventState),
      Output cfg now [] ls = ls) ∧
    (∀ (ws mf : ℕ) (now : ℤ) (dets : List String) (ls : List LabelEventState)
        (i : ℕ),
      (ls.map LabelEventState.name).Nodup → i < ls.length → dets ≠ [] →
      nthD (freshLabel "") (Output ⟨false, ws, mf⟩ now dets ls) i
        = (if (dets.take MAX_LABELS).contains (nthD (freshLabel "") ls i).name
           then (dets.filter
              (fun l => l == (nthD (freshLabel "") ls i).name)).foldl
                (fun st _ => accUpdate ws mf now st) (nthD (freshLabel "") ls i)
           else accZeroUpdate ws ((dets.filter
              (fun l => l == (nthD (freshLabel "") ls i).name)).foldl
                (fun st _ => accUpdate ws mf now st)
                (nthD (freshLabel "") ls i)))) := by
  constructor
  · intro cfg now ls; rfl
  · intro ws mf now dets ls i hnd hi hne
    have hie : dets.isEmpty = false := by
      cases dets with
      | nil => exact absurd rfl hne
      | cons a l => rfl
    have hred : Output ⟨false, ws, mf⟩ now dets ls
        = rollZeros ws (dets.take MAX_LABELS)
            (dets.foldl (processDet ⟨false, ws, mf⟩ now) ls) := by
      simp [Output, hie]
    rw [hred]
    have hlen1 : i < (dets.foldl (processDet ⟨false, ws, mf⟩ now) ls).length :=
      Nat.lt_of_lt_of_le hi (foldl_processDet_ext ⟨false, ws, mf⟩ now dets ls).1
    rw [rollZeros_nthD ws _ _ i hlen1]
    rw [foldl_processDet_nthD ⟨false, ws, mf⟩ now dets ls i hnd hi]
    rw [foldl_updDet_name ⟨false, ws, mf⟩ now _ (nthD (freshLabel "") ls i)]
    rfl

/-- C7 counterexample: a frame with an empty detection list leaves a
tracked label's ring buffer untouched (the function returns early), even
though the claim requires a 0-push — which would have advanced the ring
head. -/
theorem C7_presence_pushes_counterexample :
    Output ⟨false, 4, 3⟩ 0 [] [freshLabel "hand"] = [freshLabel "hand"] ∧
    (accZeroUpdate 4 (freshLabel "hand")).rolling_head
      ≠ (freshLabel "hand").rolling_head :=
  ⟨rfl, by decide⟩

theorem C7_presence_pushes_witness :
    nthD (freshLabel "")
        (Output ⟨false, 4, 3⟩ 0 ["hand", "fist"] [freshLabel "hand"]) 0
      = (if (["hand", "fist"].take MAX_LABELS).contains
            (nthD (freshLabel "") [freshLabel "hand"] 0).name
         then (["hand", "fist"].filter
            (fun l => l == (nthD (freshLabel "") [freshLabel "hand"] 0).name)).foldl
              (fun st _ => accUpdate 4 3 0 st)
              (nthD (freshLabel "") [freshLabel "hand"] 0)
         else accZeroUpdate 4 ((["hand", "fist"].filter
            (fun l => l == (nthD (freshLabel "") [freshLabel "hand"] 0).name)).foldl
              (fun st _ => accUpdate 4 3 0 st)
              (nthD (freshLabel "") [freshLabel "hand"] 0))) :=
  C7_presence_pushes.2 4 3 0 ["hand", "fist"] [freshLabel "hand"] 0
    (by decide) (by decide) (by decide)

theorem decodeRow_rowW : decodeRow 1 0 (1/4) ["hand"] 1 rowW = some rowOutW := by
  norm_num [decodeRow, rowObj, rowConf, dq, rowW, rowOutW, argmaxConf,
    confidenceThreshold, nthD, List.range_succ, List.range_zero]

/-- Fold invariant of the decode loop: refIds in the accumulator stay below
the counter, are strictly increasing in list order, and the counter never
decreases. -/
theorem decodeRows_inv (scale zero objTh : ℚ) (labels : List String)
    (classes : ℕ) (ts : ℤ) :
    ∀ (rows : List (List ℕ)) (acc : List Detection × ℤ),
      (∀ dd ∈ acc.1, dd.refId < acc.2) →
      acc.1.Pairwise (fun a b => a.refId < b.refId) →
      acc.2 ≤ (rows.foldl (decodeStep scale zero objTh labels classes ts) acc).2 ∧
      (∀ dd ∈ (rows.foldl (decodeStep scale zero objTh labels classes ts) acc).1,
        dd ∈ acc.1 ∨ acc.2 ≤ dd.refId) ∧
      (∀ dd ∈ (rows.foldl (decodeStep scale zero objTh labels classes ts) acc).1,
        dd.refId < (rows.foldl (decodeStep scale zero objTh labels classes ts) acc).2) ∧
      (rows.foldl (decodeStep scale zero objTh labels classes ts) acc).1.Pairwise
        (fun a b => a.refId < b.refId) := by
  intro rows
  induction rows with
  | nil =>
    intro acc h1 h2
    exact ⟨le_refl _, fun dd hd => Or.inl hd, h1, h2⟩
  | cons row rest ih =>
    intro acc h1 h2
    simp only [List.foldl_cons]
    cases hdec : decodeRow scale zero objTh labels classes row with
    | none =>
      have hstep : decodeStep scale zero objTh labels classes ts acc row = acc := by
        simp [decodeStep, hdec]
      rw [hstep]
      exact ih acc h1 h2
    | some r =>
      have hstep : decodeStep scale zero objTh labels classes ts acc row
          = (acc.1 ++ [mkDetection r ts acc.2], acc.2 + 1) := by
        simp [decodeStep, hdec]
      rw [hstep]
      have h1' : ∀ dd ∈ acc.1 ++ [mkDetection r ts acc.2],
          dd.refId < acc.2 + 1 := by
        intro dd hd
        rcases List.mem_append.mp hd with hd | hd
        · exact lt_trans (h1 dd hd) (by omega)
        · simp only [List.mem_singleton] at hd
          subst hd
          simp [mkDetection]
      have h2' : (acc.1 ++ [mkDetection r ts acc.2]).Pairwise
          (fun a b => a.refId < b.refId) := by
        rw [List.pairwise_append]
        refine ⟨h2, List.pairwise_singleton _ _, ?_⟩
        intro a ha b hb
        simp only [List.mem_singleton] at hb
        subst hb
        simpa [mkDetection] using h1 a ha
      obtain ⟨ha, hb, hc, hd⟩ := ih (acc.1 ++ [mkDetection r ts acc.2], acc.2 + 1)
        h1' h2'
      refine ⟨by omega, ?_, hc, hd⟩
      intro dd hdd
      rcases hb dd hdd with hin | hge
      · rcases List.mem_append.mp hin with hin | hin
        · exact Or.inl hin
        · simp only [List.mem_singleton] at hin
          subst hin
          exact Or.inr (by simp [mkDetection])
      · exact Or.inr (by omega)

/-- C10: within one process lifetime the refIds of emitted detections are
strictly increasing across all inference calls and never reused — every
call's refIds lie in `[ref0, ref1)` where `ref1` is the updated counter —
and neither `Output_reset` nor `Model_Reset` clears the counter. -/
theorem C10_refid_monotone :
    (∀ (nmsq scale zero objTh : ℚ) (labels : List String) (classes : ℕ)
        (ts : ℤ) (rows : List (List ℕ)) (ref0 : ℤ),
      (Model_Inference nmsq scale zero objTh labels classes ts rows ref0).1.Pairwise
        (fun a b => a.refId < b.refId) ∧
      (∀ d ∈ (Model_Inference nmsq scale zero objTh labels classes ts rows ref0).1,
        ref0 ≤ d.refId ∧
        d.refId < (Model_Inference nmsq scale zero objTh labels classes ts rows ref0).2) ∧
      ref0 ≤ (Model_Inference nmsq scale zero objTh labels classes ts rows ref0).2) ∧
    (∀ s : PipelineState,
      (Model_Reset s).currentRefId = s.currentRefId ∧
      (Output_reset s).currentRefId = s.currentRefId) := by
  constructor
  · intro nmsq scale zero objTh labels classes ts rows ref0
    obtain ⟨ha, hb, hc, hd⟩ := decodeRows_inv scale zero objTh labels classes ts
      rows ([], ref0) (by simp) (List.Pairwise.nil)
    have hfst : (Model_Inference nmsq scale zero objTh labels classes ts rows ref0).1
        = non_maximum_suppression nmsq
            (decodeRows scale zero objTh labels classes ts rows ref0).1 := rfl
    have hsnd : (Model_Inference nmsq scale zero objTh labels classes ts rows ref0).2
        = (decodeRows scale zero objTh labels classes ts rows ref0).2 := rfl
    have hsub := nms_sublist nmsq
      (decodeRows scale zero objTh labels classes ts rows ref0).1
    refine ⟨?_, ?_, ?_⟩
    · rw [hfst]
      exact List.Pairwise.sublist hsub hd
    · intro d hdmem
      rw [hfst] at hdmem
      have hdm : d ∈ (decodeRows scale zero objTh labels classes ts rows ref0).1 :=
        hsub.subset hdmem
      refine ⟨?_, by rw [hsnd]; exact hc d hdm⟩
      rcases hb d hdm with hin | hge
      · simp at hin
      · exact hge
    · rw [hsnd]; exact ha
  · intro s
    exact ⟨rfl, rfl⟩

theorem C10_refid_monotone_witness :
    10 ≤ (mkDetection rowOutW 0 10).refId ∧
    (mkDetection rowOutW 0 10).refId
      < (Model_Inference (1/20) 1 0 (1/4) ["hand"] 1 0 [rowW] 10).2 := by
  have hlist : (Model_Inference (1/20) 1 0 (1/4) ["hand"] 1 0 [rowW] 10).1
      = [mkDetection rowOutW 0 10] := by
    simp only [Model_Inference, decodeRows, List.foldl_cons, List.foldl_nil,
      decodeStep, decodeRow_rowW, non_maximum_suppression,
      List.length_singleton]
    norm_num
  have hmem : mkDetection rowOutW 0 10
      ∈ (Model_Inference (1/20) 1 0 (1/4) ["hand"] 1 0 [rowW] 10).1 := by
    rw [hlist]
    exact List.mem_singleton.mpr rfl
  exact (C10_refid_monotone.1 (1/20) 1 0 (1/4) ["hand"] 1 0 [rowW] 10).2.1
    (mkDetection rowOutW 0 10) hmem

end HandGesture
